import Mathlib

/-!
Verification of the MiniBlaze XPath locator generator
(`src/utils/xpath.ts`, class `XPathGenerator`) against its
natural-language specification.

The document tree, the generator's strategies, the stability
classifiers, the path simplifier and the validator are shallowly
embedded as executable Lean definitions translated from the TypeScript
source.  The query evaluator (`document.evaluate`) is a host API that
is not part of the repository; it is modelled from the specification's
description of the restricted XPath dialect the generator emits
(absolute/relative axis steps, attribute-equality and `contains()`
predicates, 1-based positional indices, `following-sibling::`).

Machine details modelled explicitly:
* JavaScript regular expressions are embedded as decidable predicates
  over character lists (each definition names the regex it embeds);
* the vowel-ratio comparison `vowelCount / length >= 0.3`, computed in
  floating point by the source, is modelled as the exact rational
  comparison `10 * vowelCount >= 3 * length` (for the string lengths
  representable in a document the two never disagree);
* the wall clock is modelled as constant within a single `generate`
  call, so the cooperative timeout flag is a fixed field of the
  generator state.
-/

namespace MiniBlaze

/-! ### Character classes and small string utilities (JS semantics) -/

/-- The double-quote character, `"`. -/
def dq : Char := Char.ofNat 34

/-- The single-quote character, `'`. -/
def sq : Char := Char.ofNat 39

/-- The backslash character. -/
def bslash : Char := Char.ofNat 92

/-- `\d` of a JS regex: the ASCII digits `0`-`9`. -/
def isDigitC (c : Char) : Bool := '0' ≤ c && c ≤ '9'

/-- The class `[a-z]` of a JS regex. -/
def isLowerAZ (c : Char) : Bool := 'a' ≤ c && c ≤ 'z'

/-- The class `[a-f0-9]` of a JS regex (after lowercasing). -/
def isHexC (c : Char) : Bool := isDigitC c || ('a' ≤ c && c ≤ 'f')

/-- The class `[a-z0-9]` of a JS regex (after lowercasing). -/
def isAlnumC (c : Char) : Bool := isLowerAZ c || isDigitC c

/-- The vowels `[aeiou]` (after lowercasing). -/
def isVowelC (c : Char) : Bool :=
  c = 'a' || c = 'e' || c = 'i' || c = 'o' || c = 'u'

/-- Whitespace as trimmed by JS `String.prototype.trim` (ASCII part). -/
def isWSC (c : Char) : Bool :=
  c = ' ' || c = Char.ofNat 9 || c = Char.ofNat 10 || c = Char.ofNat 13

/-- Lowercased character list of a string (JS `toLowerCase`, ASCII range). -/
def strLower (s : String) : List Char := s.data.map Char.toLower

/-- JS `String.prototype.trim` on a character list. -/
def jsTrimL (l : List Char) : List Char :=
  ((l.dropWhile isWSC).reverse.dropWhile isWSC).reverse

/-- JS `String.prototype.trim`. -/
def jsTrim (s : String) : String := String.mk (jsTrimL s.data)

/-- Substring test on character lists (JS `String.prototype.includes`). -/
def includesL (pat : List Char) : List Char → Bool
  | [] => pat.isEmpty
  | c :: cs => pat.isPrefixOf (c :: cs) || includesL pat cs

/-- JS `String.prototype.includes`. -/
def sIncludes (pat s : String) : Bool := includesL pat.data s.data

/-- JS `Array.prototype.join` with a separator string. -/
def jsJoin (sep : String) : List String → String
  | [] => ""
  | x :: xs => xs.foldl (fun acc y => acc ++ sep ++ y) x

/-- Splitting a character list on the two-character separator `//`,
scanning left to right (JS `String.prototype.split("//")`), as a
one-character-at-a-time scan: `pend` records an unconsumed `/` that
may start a separator, `acc` holds the current piece in reverse. -/
def splitDDAux : List Char → Bool → List Char → List (List Char)
  | [], true, acc => [('/' :: acc).reverse]
  | [], false, acc => [acc.reverse]
  | c :: cs, true, acc =>
    if c = '/' then acc.reverse :: splitDDAux cs false []
    else splitDDAux cs false (c :: '/' :: acc)
  | c :: cs, false, acc =>
    if c = '/' then splitDDAux cs true acc
    else splitDDAux cs false (c :: acc)

/-- JS `String.prototype.split("//")` on a character list. -/
def splitDD (l : List Char) : List (List Char) := splitDDAux l false []

/-- No two adjacent slashes (no occurrence of the separator `//`). -/
def ddFree : List Char → Bool
  | c1 :: c2 :: cs => !(c1 = '/' && c2 = '/') && ddFree (c2 :: cs)
  | _ => true

/-- JS `xpath.split("//").filter(s => s)`: the `//`-separated segments
of a path, empty pieces removed. -/
def splitSegs (s : String) : List String :=
  ((splitDD s.data).filter (fun p => !p.isEmpty)).map String.mk

/-- Number of `//`-separated segments of a path string. -/
def segCount (s : String) : Nat := (splitSegs s).length

/-- Replace every occurrence of the character `c` by the character list
`r` (JS `String.prototype.replace` with a global single-character
pattern). -/
def replaceCharL (c : Char) (r : List Char) : List Char → List Char
  | [] => []
  | x :: xs => (if x = c then r else [x]) ++ replaceCharL c r xs

/-- Splitting a character list on a single character (JS `split('"')`). -/
def splitChar (c : Char) : List Char → List Char → List (List Char)
  | [], acc => [acc.reverse]
  | x :: xs, acc =>
    if x = c then acc.reverse :: splitChar c xs []
    else splitChar c xs (x :: acc)

/-- Split on runs of whitespace (JS `split(/\s+/)`, applied by the
source only after `trim`, so no empty pieces arise).  `acc` holds the
current word in reverse. -/
def splitWSAux : List Char → List Char → List (List Char)
  | [], acc => if acc.isEmpty then [] else [acc.reverse]
  | c :: cs, acc =>
    if isWSC c then
      if acc.isEmpty then splitWSAux cs [] else acc.reverse :: splitWSAux cs []
    else splitWSAux cs (c :: acc)

/-- Split a trimmed class attribute into its whitespace-separated
tokens. -/
def splitWS (l : List Char) : List (List Char) := splitWSAux l []

/-! ### Document model

A document is a tree of elements.  `tag` is stored lowercased (the
source always compares `tagName.toLowerCase()`), `attrs` is the
attribute list, `text` is the element's direct text content and
`children` its child elements.  An element is identified by its
address: the list of child indices from the document element (the
root, address `[]`).  Reference equality of DOM nodes is address
equality. -/

inductive Elem where
  | mk (tag : String) (attrs : List (String × String)) (text : String)
       (children : List Elem)
  deriving Repr

abbrev Addr := List Nat

/-- Tag of an element. -/
def Elem.tag : Elem → String
  | .mk t _ _ _ => t

/-- Attribute list of an element. -/
def Elem.attrs : Elem → List (String × String)
  | .mk _ a _ _ => a

/-- Direct text of an element. -/
def Elem.text : Elem → String
  | .mk _ _ t _ => t

/-- Children of an element. -/
def Elem.children : Elem → List Elem
  | .mk _ _ _ ch => ch

/-- Element at an address, if the address is valid. -/
def getElem? : Elem → Addr → Option Elem
  | e, [] => some e
  | .mk _ _ _ ch, i :: rest =>
    match ch.get? i with
    | some c => getElem? c rest
    | none => none

/-- Element at an address, defaulting to an empty placeholder. -/
def elemAt (doc : Elem) (a : Addr) : Elem :=
  (getElem? doc a).getD (.mk "" [] "" [])

mutual
/-- Preorder list of the addresses of a subtree rooted at `base`. -/
def preAddrs : Elem → Addr → List Addr
  | .mk _ _ _ ch, base => base :: preAddrsL ch base 0

/-- Preorder addresses of a list of sibling subtrees. -/
def preAddrsL : List Elem → Addr → Nat → List Addr
  | [], _, _ => []
  | c :: cs, base, i => preAddrs c (base ++ [i]) ++ preAddrsL cs base (i + 1)
end

/-- All addresses of a document in document (preorder) order. -/
def allAddrs (doc : Elem) : List Addr := preAddrs doc []

mutual
/-- `textContent` of an element: its direct text followed by the text
of its descendants, in document order. -/
def textContentE : Elem → String
  | .mk _ _ t ch => t ++ textContentL ch

/-- `textContent` of a list of sibling subtrees. -/
def textContentL : List Elem → String
  | [] => ""
  | c :: cs => textContentE c ++ textContentL cs
end

/-- `parentElement`: the document element (address `[]`) has none. -/
def parentAddr (a : Addr) : Option Addr :=
  if a = [] then none else some a.dropLast

/-- Tag of the element at an address (empty for invalid addresses). -/
def tagAt (doc : Elem) (a : Addr) : String := (elemAt doc a).tag

/-- Attribute lookup, `getAttribute`. -/
def getAttr (doc : Elem) (a : Addr) (name : String) : Option String :=
  (elemAt doc a).attrs.lookup name

/-- The `id` property; the empty string when the attribute is absent,
matching the DOM (`id` is truthy iff nonempty). -/
def idOf (doc : Elem) (a : Addr) : String := (getAttr doc a "id").getD ""

/-- The `className` property (empty when the attribute is absent). -/
def classNameOf (doc : Elem) (a : Addr) : String :=
  (getAttr doc a "class").getD ""

/-- Direct text of the element at an address. -/
def directText (doc : Elem) (a : Addr) : String := (elemAt doc a).text

/-- `textContent` of the element at an address. -/
def textContentAt (doc : Elem) (a : Addr) : String :=
  textContentE (elemAt doc a)

/-- Index of an element among its parent's children. -/
def childIdx (a : Addr) : Nat := (a.getLast?).getD 0

/-- Tags of the children of the element at an address, in order. -/
def childTags (doc : Elem) (a : Addr) : List String :=
  (elemAt doc a).children.map Elem.tag

/-- `previousElementSibling` of the element at an address. -/
def prevSibling (a : Addr) : Option Addr :=
  match a.getLast? with
  | some (i + 1) => some (a.dropLast ++ [i])
  | _ => none

/-- `getElementPosition`: 1-based position among same-tag siblings
(`1` when the element has no parent). -/
def getElementPosition (doc : Elem) (a : Addr) : Nat :=
  match parentAddr a with
  | none => 1
  | some p =>
    ((childTags doc p).take (childIdx a)).countP (· = tagAt doc a) + 1

/-- `getSiblingsByTag`: number of same-tag siblings, the element
included (`1` when the element has no parent). -/
def getSiblingsByTag (doc : Elem) (a : Addr) : Nat :=
  match parentAddr a with
  | none => 1
  | some p => (childTags doc p).countP (· = tagAt doc a)

/-- Proper-ancestor test on addresses: `b` is a proper ancestor of
`a` iff `b` is a strict prefix of `a`. -/
def isProperAnc (b a : Addr) : Bool := b.isPrefixOf a && b.length < a.length

/-! ### Query evaluator

Modelled from the spec: the Query Evaluator (`document.evaluate`) is
an external collaborator, described in the specification as evaluating
"a restricted XPath dialect: absolute/relative axis steps,
attribute-equality and `contains()` predicates, 1-based positional
indices, `following-sibling::`" and returning the matching nodes in
document order.  A malformed expression makes the evaluator throw,
which the embedding models by the parser returning `none`. -/

/-- A step predicate of the restricted dialect. -/
inductive Pred where
  | pos (n : Nat)
  | attrEq (name value : String)
  | cClass (value : String)
  | cText (value : String)
  deriving DecidableEq, Repr

/-- The axis of a step. -/
inductive Axis where
  | descendant
  | child
  | followingSibling
  deriving DecidableEq, Repr

/-- One location step of the restricted dialect. -/
structure Step where
  axis : Axis
  tag : String
  pred : Option Pred
  deriving DecidableEq, Repr

/-- A parsed query: a chain of steps, optionally wrapped in an outer
positional filter `(path)[n]`. -/
structure Query where
  steps : List Step
  outerPos : Option Nat
  deriving DecidableEq, Repr

/-- Characters allowed in a tag or attribute name. -/
def isNameC (c : Char) : Bool :=
  isLowerAZ c || ('A' ≤ c && c ≤ 'Z') || isDigitC c || c = '-' || c = '_'

/-- Parse a nonempty decimal number. -/
def parseNatL (cs : List Char) : Option (Nat × List Char) :=
  let ds := cs.takeWhile isDigitC
  if ds.isEmpty then none
  else some (ds.foldl (fun n c => n * 10 + (c.toNat - 48)) 0,
             cs.dropWhile isDigitC)

/-- Parse a nonempty name. -/
def parseNameL (cs : List Char) : Option (String × List Char) :=
  let nm := cs.takeWhile isNameC
  if nm.isEmpty then none
  else some (String.mk nm, cs.dropWhile isNameC)

/-- Parse a double-quoted literal: the characters up to the next
double quote (XPath string literals have no escaping). -/
def parseQuoted (cs : List Char) : Option (String × List Char) :=
  let v := cs.takeWhile (fun c => c ≠ dq)
  match cs.dropWhile (fun c => c ≠ dq) with
  | c :: rest => if c = dq then some (String.mk v, rest) else none
  | [] => none

/-- Parse an optional predicate `[n]`, `[@name="v"]`,
`[contains(@class, "v")]` or `[contains(text(), "v")]`. -/
def parsePred (cs : List Char) : Option (Option Pred × List Char) :=
  match cs with
  | '[' :: '@' :: r =>
    match parseNameL r with
    | some (nm, r1) =>
      match r1 with
      | '=' :: c :: r2 =>
        if c = dq then
          match parseQuoted r2 with
          | some (v, ']' :: r3) => some (some (.attrEq nm v), r3)
          | _ => none
        else none
      | _ => none
    | none => none
  | '[' :: r =>
    if ("contains(@class, ".data ++ [dq]).isPrefixOf r then
      match parseQuoted (r.drop 18) with
      | some (v, ')' :: ']' :: r3) => some (some (.cClass v), r3)
      | _ => none
    else if ("contains(text(), ".data ++ [dq]).isPrefixOf r then
      match parseQuoted (r.drop 18) with
      | some (v, ')' :: ']' :: r3) => some (some (.cText v), r3)
      | _ => none
    else
      match parseNatL r with
      | some (n, ']' :: r2) => some (some (.pos n), r2)
      | _ => none
  | _ => some (none, cs)

/-- Parse one step body (name plus optional predicate). -/
def parseStepBody (ax : Axis) (cs : List Char) : Option (Step × List Char) :=
  match parseNameL cs with
  | some (nm, r1) =>
    match parsePred r1 with
    | some (p, r2) => some (⟨ax, nm, p⟩, r2)
    | none => none
  | none => none

/-- Parse the remaining steps of a path.  Each further step is either
`//step` (descendant axis), `/following-sibling::tag[pred]`, or
`/step` (child axis).  Stops at the first character that starts none
of these. -/
def parseMore (fuel : Nat) (acc : List Step) (cs : List Char) :
    Option (List Step × List Char) :=
  match fuel with
  | 0 => none
  | fuel + 1 =>
    match cs with
    | '/' :: '/' :: r =>
      match parseStepBody .descendant r with
      | some (st, r1) => parseMore fuel (acc ++ [st]) r1
      | none => none
    | '/' :: r =>
      if "following-sibling::".data.isPrefixOf r then
        match parseStepBody .followingSibling (r.drop 19) with
        | some (st, r1) => parseMore fuel (acc ++ [st]) r1
        | none => none
      else
        match parseStepBody .child r with
        | some (st, r1) => parseMore fuel (acc ++ [st]) r1
        | none => none
    | _ => some (acc, cs)

/-- Parse a path `//step(//step | /step | /following-sibling::…)*`. -/
def parsePath (cs : List Char) : Option (List Step × List Char) :=
  match cs with
  | '/' :: '/' :: r =>
    match parseStepBody .descendant r with
    | some (st, r1) => parseMore (r1.length + 1) [st] r1
    | none => none
  | _ => none

/-- Parse a full query, either `path` or `(path)[n]`.  Returns `none`
on any malformed input (the evaluator would throw). -/
def parseQuery (s : String) : Option Query :=
  match s.data with
  | '(' :: r =>
    match parsePath r with
    | some (steps, ')' :: '[' :: r2) =>
      match parseNatL r2 with
      | some (n, [']']) => some ⟨steps, some n⟩
      | _ => none
    | _ => none
  | cs =>
    match parsePath cs with
    | some (steps, []) => some ⟨steps, none⟩
    | _ => none

/-- Local (context-independent) part of matching a descendant or
child step: tag equality plus the predicate, where a positional
predicate `[n]` selects the `n`-th same-tag child of the parent. -/
def localStep (doc : Elem) (s : Step) (a : Addr) : Bool :=
  tagAt doc a = s.tag &&
  match s.pred with
  | none => true
  | some (.pos n) => getElementPosition doc a = n
  | some (.attrEq nm v) => getAttr doc a nm = some v
  | some (.cText v) => sIncludes v (directText doc a)
  | some (.cClass v) => sIncludes v (classNameOf doc a)

/-- The following siblings of `b` whose tag is `t`, in order. -/
def followingSameTag (doc : Elem) (b : Addr) (t : String) : List Addr :=
  match parentAddr b with
  | none => []
  | some p =>
    ((childTags doc p).enum.filterMap fun ti =>
      if childIdx b < ti.1 && ti.2 = t then some (p ++ [ti.1]) else none)

/-- Matching of a `following-sibling::tag[pred]` step relative to a
context node `b`; a positional predicate counts within that axis. -/
def fsMatch (doc : Elem) (s : Step) (b a : Addr) : Bool :=
  let sibs := followingSameTag doc b s.tag
  a ∈ sibs &&
  match s.pred with
  | none => true
  | some (.pos n) => sibs.get? (n - 1) = some a && n ≠ 0
  | some (.attrEq nm v) => getAttr doc a nm = some v
  | some (.cText v) => sIncludes v (directText doc a)
  | some (.cClass v) => sIncludes v (classNameOf doc a)

/-- Apply one non-initial step to a context node set (kept in document
order by filtering the preorder list of all addresses). -/
def applyStep (doc : Elem) (ctx : List Addr) (s : Step) : List Addr :=
  match s.axis with
  | .descendant =>
    (allAddrs doc).filter fun a =>
      localStep doc s a && ctx.any (fun b => isProperAnc b a)
  | .child =>
    (allAddrs doc).filter fun a =>
      localStep doc s a &&
      (match parentAddr a with
       | some p => ctx.contains p
       | none => false)
  | .followingSibling =>
    (allAddrs doc).filter fun a => ctx.any (fun b => fsMatch doc s b a)

/-- Evaluate a step chain from the document context.  A query always
begins with `//step`, whose matches are all elements satisfying the
step locally. -/
def evalSteps (doc : Elem) : List Step → List Addr
  | [] => []
  | s0 :: rest =>
    let ctx0 :=
      match s0.axis with
      | .descendant => (allAddrs doc).filter (localStep doc s0)
      | .child => (allAddrs doc).filter fun a => a = ([] : Addr) && localStep doc s0 a
      | .followingSibling => []
    rest.foldl (applyStep doc) ctx0

/-- Evaluate a parsed query; the outer `(path)[n]` filter keeps the
`n`-th match only. -/
def evalQuery (doc : Elem) (q : Query) : List Addr :=
  let res := evalSteps doc q.steps
  match q.outerPos with
  | none => res
  | some n =>
    if n = 0 then []
    else
      match res.get? (n - 1) with
      | some a => [a]
      | none => []

/-- `document.evaluate` with an ordered snapshot result: `none` models
a thrown evaluation error (malformed expression). -/
def evaluate (doc : Elem) (s : String) : Option (List Addr) :=
  (parseQuery s).map (evalQuery doc)

/-- `isUniqueSelector`: exactly one match; any evaluation exception is
caught and treated as `false`. -/
def isUniqueSelector (doc : Elem) (s : String) : Bool :=
  match evaluate doc s with
  | none => false
  | some l => l.length = 1

/-- `validateSelector`: the first match (document order) is
reference-equal to the target; any evaluation exception is caught and
treated as `false`. -/
def validateSelector (doc : Elem) (s : String) (target : Addr) : Bool :=
  match evaluate doc s with
  | none => false
  | some l => l.head? = some target

/-! ### Stability classifiers

Each JS regex of the source is embedded as a decidable predicate on
character lists; the embedded regex is named in the doc comment. -/

/-- `/^\d{8}$/i`: exactly eight digits. -/
def numeric8B (l : List Char) : Bool := l.length = 8 && l.all isDigitC

/-- `[a-z]+` then `-` then at least `m` digits, to the end of the
input (the tail of `/^[a-z]+-\d{m,}$/`). -/
def lddB (l : List Char) (m : Nat) : Bool :=
  let w := l.takeWhile isLowerAZ
  match l.dropWhile isLowerAZ with
  | '-' :: d => !w.isEmpty && m ≤ d.length && d.all isDigitC
  | _ => false

/-- `/^ember\d+$/i` on the lowercased id. -/
def emberB (l : List Char) : Bool :=
  "ember".data.isPrefixOf l && !(l.drop 5).isEmpty && (l.drop 5).all isDigitC

/-- `/^react-[a-z]+-\d+$/i` (and the `ng-`/`vue-` variants) on the
lowercased id: the framework name, `-`, a word, `-`, digits. -/
def fwB (p : String) (l : List Char) : Bool :=
  (p.data ++ ['-']).isPrefixOf l && lddB (l.drop (p.length + 1)) 1

/-- `/^jsx-\d+$/i` on the lowercased id. -/
def jsxB (l : List Char) : Bool :=
  "jsx-".data.isPrefixOf l && !(l.drop 4).isEmpty && (l.drop 4).all isDigitC

/-- `/^[a-z]+-\d{3,}$/i` on the lowercased id. -/
def wordDigitsB (l : List Char) : Bool := lddB l 3

/-- `/^[a-f0-9]{8,}$/i` on the lowercased id. -/
def hexRunB (l : List Char) : Bool := 8 ≤ l.length && l.all isHexC

/-- A literal prefix test, for the anchored prefix regexes of the
source: `^uid-`, `^gen-`, `^auto-` (case-insensitive, applied to the
lowercased id) and `^css-`, `^jsx-`, `^sc-`, `^makeStyles-`
(case-sensitive, applied to the raw token). -/
def preB (p : String) (l : List Char) : Bool := p.data.isPrefixOf l

/-- Whether the id matches one of the `dynamicIdPatterns` of the
source (all eleven carry the `i` flag, so they are tested on the
lowercased id). -/
def dynMatch (s : String) : Bool :=
  let l := strLower s
  numeric8B l || emberB l || fwB "react" l || fwB "ng" l || fwB "vue" l ||
  jsxB l || wordDigitsB l || hexRunB l ||
  preB "uid-" l || preB "gen-" l || preB "auto-" l

/-- `isStableId`: a falsy (empty) id is unstable; otherwise stable iff
no dynamic-id pattern matches. -/
def isStableId (s : String) : Bool :=
  if s = "" then false else !dynMatch s

/-- `/^jss\d+/` (case-sensitive, unanchored at the end): `jss`
followed by at least one digit. -/
def jssB (l : List Char) : Bool :=
  "jss".data.isPrefixOf l &&
  match l.drop 3 with
  | c :: _ => isDigitC c
  | [] => false

/-- `/_[a-z0-9]{5,}$/i` on the lowercased token: an underscore
followed by five or more alphanumerics running to the end. -/
def underAlnum5B : List Char → Bool
  | [] => false
  | c :: rest =>
    (c = '_' && 5 ≤ rest.length && rest.all isAlnumC) || underAlnum5B rest

/-- `/^[a-z]{1,2}\d+$/i` on the lowercased token: one or two letters
followed only by digits. -/
def letters12B (l : List Char) : Bool :=
  let w := l.takeWhile isLowerAZ
  (w.length = 1 || w.length = 2) &&
  !(l.dropWhile isLowerAZ).isEmpty && (l.dropWhile isLowerAZ).all isDigitC

/-- `/^\d/`: a leading digit. -/
def leadDigitB : List Char → Bool
  | c :: _ => isDigitC c
  | [] => false

/-- `/^[a-z]{6,}$/i` on the lowercased token: six or more letters. -/
def alpha6B (l : List Char) : Bool := 6 ≤ l.length && l.all isLowerAZ

/-- Whether the token matches one of the `unstablePatterns` of
`isStableClass` (only the underscore and letters-digits patterns carry
the `i` flag). -/
def unstableClassMatch (s : String) : Bool :=
  preB "css-" s.data || preB "jsx-" s.data || preB "sc-" s.data ||
  preB "makeStyles-" s.data || jssB s.data ||
  underAlnum5B (strLower s) || letters12B (strLower s) ||
  leadDigitB s.data

/-- Number of vowels of the token (`/[aeiou]/gi`). -/
def vowelCount (s : String) : Nat := (strLower s).countP isVowelC

/-- `isStableClass`: reject the generated shapes; a purely alphabetic
token of length at least six is additionally required to have a vowel
ratio of at least `0.3` (the source's floating-point comparison
`vowelCount / length >= 0.3`, modelled exactly as
`10 * vowelCount >= 3 * length`). -/
def isStableClass (s : String) : Bool :=
  if s = "" then false
  else if unstableClassMatch s then false
  else if alpha6B (strLower s) then 3 * s.length ≤ 10 * vowelCount s
  else true

/-- `isDistinctiveClass`: length at least five, containing a hyphen or
starting with two lowercase letters (`/^[a-z][a-z]/`), and not of the
shape letter-then-digit (`/^[a-z]\d/`). -/
def isDistinctiveClass (s : String) : Bool :=
  5 ≤ s.length &&
  (s.data.contains '-' ||
    (match s.data with
     | c1 :: c2 :: _ => isLowerAZ c1 && isLowerAZ c2
     | _ => false)) &&
  !(match s.data with
    | c1 :: c2 :: _ => isLowerAZ c1 && isDigitC c2
    | _ => false)

/-- `/^[a-f0-9]{8}-[a-f0-9]{4}-[a-f0-9]{4}-[a-f0-9]{4}-[a-f0-9]{12}$/i`:
a UUID. -/
def uuidB (l : List Char) : Bool :=
  let seg (n : Nat) (x : List Char) : Bool := x.length = n && x.all isHexC
  match splitChar '-' l [] with
  | [a, b, c, d, e] => seg 8 a && seg 4 b && seg 4 c && seg 4 d && seg 12 e
  | _ => false

/-- `isDataSpecificValue`: purely numeric values (`/^\d+$/`), UUIDs,
or alphanumeric values longer than 30 characters (`/^[a-z0-9]+$/i`).
The attribute-name argument is unused, as in the source. -/
def isDataSpecificValue (_attr value : String) : Bool :=
  if value = "" then false
  else if !value.data.isEmpty && value.data.all isDigitC then true
  else if uuidB (strLower value) then true
  else if 30 < value.length && !(strLower value).isEmpty &&
          (strLower value).all isAlnumC then true
  else false

/-- `/\d{1,3}(,\d{3})+/` searched anywhere: some digit immediately
followed by a comma and three digits (a shorter primary run always
suffices for an unanchored match). -/
def hasThousands : List Char → Bool
  | d :: ',' :: a :: b :: c :: rest =>
    (isDigitC d && isDigitC a && isDigitC b && isDigitC c) ||
      hasThousands (',' :: a :: b :: c :: rest)
  | _ :: rest => hasThousands rest
  | [] => false

/-- `looksLikeUserData`: purely numeric trimmed text, a
thousands-separated number anywhere, or text over 50 characters. -/
def looksLikeUserData (t : String) : Bool :=
  let tr := jsTrimL t.data
  if !tr.isEmpty && tr.all isDigitC then true
  else if hasThousands t.data then true
  else if 50 < t.length then true
  else false

/-- `escapeXPath`: with both quote kinds present, build a `concat()`
expression; with only double quotes present, replace single quotes by
`\'` (a no-op, since none are present); otherwise replace double
quotes by `\"`. -/
def escapeXPath (v : String) : String :=
  if v = "" then ""
  else if v.data.contains dq && v.data.contains sq then
    let parts := (splitChar dq v.data []).map
      (fun p => String.mk ([dq] ++ p ++ [dq]))
    "concat(" ++ jsJoin (String.mk [',', ' ', sq, dq, sq, ',', ' ']) parts ++ ")"
  else if v.data.contains dq then
    String.mk (replaceCharL sq [bslash, sq] v.data)
  else
    String.mk (replaceCharL dq [bslash, dq] v.data)

/-! ### Generator state and segment builders -/

/-- The per-call state of `XPathGenerator`: the `maxDepth` and
`timeout` options and the elapsed wall-clock time, modelled as a
constant within one call (`Date.now() - startTime`). -/
structure GenState where
  maxDepth : Nat
  timeout : Nat
  elapsed : Nat
  deriving Repr

/-- The constructor's defaulting: `options.maxDepth || 10` and
`options.timeout || 20000` (JS `||`, so an explicit `0` also falls
back to the default); `elapsed` is `0` at the start of a call. -/
def mkGen (maxDepth? timeout? : Option Nat) : GenState :=
  ⟨match maxDepth? with
   | some n => if n = 0 then 10 else n
   | none => 10,
   match timeout? with
   | some n => if n = 0 then 20000 else n
   | none => 20000,
   0⟩

/-- The default generator state. -/
def cfgD : GenState := mkGen none none

/-- `isTimeout`. -/
def isTimeout (g : GenState) : Bool := g.timeout < g.elapsed

/-- `structuralAttributes`. -/
def structuralAttributes : List String :=
  ["data-testid", "data-test", "name", "role", "type",
   "aria-label", "aria-labelledby"]

/-- `semanticLandmarks`. -/
def semanticLandmarks : List String :=
  ["main", "nav", "header", "footer", "aside", "article", "section", "form"]

/-- `implicitElements`. -/
def implicitElements : List String := ["tbody", "thead", "tfoot"]

/-- `getStableAttributes`: the structural attributes present on the
element whose values are truthy and not data-specific, in preference
order. -/
def getStableAttributes (doc : Elem) (a : Addr) : List (String × String) :=
  structuralAttributes.filterMap fun attr =>
    match getAttr doc a attr with
    | some v => if v ≠ "" && !isDataSpecificValue attr v then some (attr, v) else none
    | none => none

/-- `getStableAttribute`: the first stable attribute, if any. -/
def getStableAttribute (doc : Elem) (a : Addr) : Option (String × String) :=
  (getStableAttributes doc a).head?

/-- Hyphen count of a class token. -/
def hyphens (s : String) : Nat := s.data.countP (· = '-')

/-- The comparator of `getStableClass`'s sort: more hyphens first,
then longer first (`Array.prototype.sort` is stable). -/
def classLe (a b : String) : Bool :=
  if hyphens a ≠ hyphens b then hyphens b < hyphens a
  else b.length ≤ a.length

/-- Stable insertion into a sorted list: the new element (later in
the original order) goes after every element it ties with, modelling
the stability of JS `Array.prototype.sort`. -/
def insSorted (x : String) : List String → List String
  | [] => [x]
  | y :: ys => if classLe y x then y :: insSorted x ys else x :: y :: ys

/-- Stable sort by `classLe` (JS `Array.prototype.sort` with the
source's comparator). -/
def stableSort (l : List String) : List String :=
  l.foldl (fun acc x => insSorted x acc) []

/-- `getStableClass`: split the class attribute on whitespace, keep
the stable tokens, and pick the first after the stable sort. -/
def getStableClass (doc : Elem) (a : Addr) : Option String :=
  let cn := classNameOf doc a
  if cn = "" then none
  else
    let toks := (splitWS (jsTrimL cn.data)).map String.mk
    let stable := toks.filter isStableClass
    (stableSort stable).head?

/-- `getMinimalSegment`: a stable attribute predicate when available,
else the bare tag for an only-same-tag child, else tag plus 1-based
position. -/
def getMinimalSegment (doc : Elem) (a : Addr) : String :=
  let tag := tagAt doc a
  match getStableAttribute doc a with
  | some (n, v) => tag ++ "[@" ++ n ++ "=" ++ String.mk [dq] ++ escapeXPath v ++ String.mk [dq] ++ "]"
  | none =>
    if getSiblingsByTag doc a = 1 then tag
    else tag ++ "[" ++ toString (getElementPosition doc a) ++ "]"

/-- Quote a value into an XPath attribute predicate. -/
def qv (v : String) : String := String.mk [dq] ++ v ++ String.mk [dq]

/-- `getDistinctiveSegment`: stable id, else stable attribute, else
distinctive class, else position for common structural tags with
same-tag siblings, else the bare tag. -/
def getDistinctiveSegment (doc : Elem) (a : Addr) : String :=
  let tag := tagAt doc a
  if idOf doc a ≠ "" && isStableId (idOf doc a) then
    tag ++ "[@id=" ++ qv (escapeXPath (idOf doc a)) ++ "]"
  else
    match getStableAttribute doc a with
    | some (n, v) => tag ++ "[@" ++ n ++ "=" ++ qv (escapeXPath v) ++ "]"
    | none =>
      match getStableClass doc a with
      | some cls =>
        if isDistinctiveClass cls then
          tag ++ "[contains(@class, " ++ qv (escapeXPath cls) ++ ")]"
        else distinctiveTail doc a tag
      | none => distinctiveTail doc a tag
where
  /-- The position/landmark/bare-tag fallthrough of
  `getDistinctiveSegment`. -/
  distinctiveTail (doc : Elem) (a : Addr) (tag : String) : String :=
    if 1 < getSiblingsByTag doc a &&
       ["div", "span", "li", "td", "dd", "dt"].contains tag then
      tag ++ "[" ++ toString (getElementPosition doc a) ++ "]"
    else tag

/-- `findDistinctiveContainer`: walk the ancestors (strictly below the
document element, at most six steps) for one with a distinctive stable
class, a stable id, or a semantic-landmark tag. -/
def findDistinctiveContainer (doc : Elem) : Option Addr → Nat → Option Addr
  | none, _ => none
  | some _, 0 => none
  | some c, fuel + 1 =>
    if c = [] then none
    else if (classNameOf doc c ≠ "" &&
             match getStableClass doc c with
             | some cls => isDistinctiveClass cls
             | none => false) then some c
    else if idOf doc c ≠ "" && isStableId (idOf doc c) then some c
    else if semanticLandmarks.contains (tagAt doc c) then some c
    else findDistinctiveContainer doc (parentAddr c) fuel

/-- `buildPathToTarget`'s walk: the tag chain from the container down
to the element, implicit elements skipped, at most five tags collected
(`path.length > 4` breaks after the push).  The `fuel` argument only
bounds the walk by the depth of the start node, which the wrapper
supplies; the walk itself always stops earlier (at the container or
the document element). -/
def buildPathToTargetAux (doc : Elem) : Nat → Option Addr → Addr → List String → List String
  | _, none, _, path => path
  | 0, some _, _, path => path
  | fuel + 1, some c, cont, path =>
    if c = cont then path
    else
      let tag := tagAt doc c
      if implicitElements.contains tag then
        buildPathToTargetAux doc fuel (parentAddr c) cont path
      else
        let p := tag :: path
        if 4 < p.length then p
        else buildPathToTargetAux doc fuel (parentAddr c) cont p

/-- `buildPathToTarget`. -/
def buildPathToTarget (doc : Elem) (a cont : Addr) : Option String :=
  match buildPathToTargetAux doc (a.length + 1) (some a) cont [] with
  | [] => none
  | path => some (jsJoin "/" path)

/-- `findPositionAmongSiblings`: evaluate the distinctive path, find
the 1-based index of the target among the matches; evaluation errors
and a missing target yield `null`. -/
def findPositionAmongSiblings (doc : Elem) (dp : String) (target : Addr) :
    Option Nat :=
  match evaluate doc dp with
  | none => none
  | some l =>
    if l.isEmpty then none
    else
      match l.findIdx? (· = target) with
      | some i => some (i + 1)
      | none => none

/-! ### Candidate strategies -/

/-- The guard every candidate must pass before a strategy returns it:
unique and resolving to the target. -/
def okCand (doc : Elem) (a : Addr) (x : String) : Bool :=
  isUniqueSelector doc x && validateSelector doc x a

/-- The source's `if (isUniqueSelector(x) && validateSelector(x, el))
return x` idiom. -/
def guarded (doc : Elem) (a : Addr) (x : String) : Option String :=
  if okCand doc a x then some x else none

/-- Strategy `tryStableAnchorPath`: the bare tag, then each semantic
landmark as `//landmark//tag`, then a distinctive container with the
positional pattern `(//container//targetpath)[position]`. -/
def tryStableAnchorPath (doc : Elem) (a : Addr) : Option String :=
  let tag := tagAt doc a
  match guarded doc a ("//" ++ tag) with
  | some s => some s
  | none =>
    match semanticLandmarks.find? (fun lm => okCand doc a ("//" ++ lm ++ "//" ++ tag)) with
    | some lm => some ("//" ++ lm ++ "//" ++ tag)
    | none =>
      match findDistinctiveContainer doc (parentAddr a) 6 with
      | none => none
      | some cont =>
        if getDistinctiveSegment doc cont = "" then none
        else
          match buildPathToTarget doc a cont with
          | none => none
          | some targetPath =>
            let dp := "//" ++ getDistinctiveSegment doc cont ++ "//" ++ targetPath
            match findPositionAmongSiblings doc dp a with
            | none => none
            | some pos => guarded doc a ("(" ++ dp ++ ")[" ++ toString pos ++ "]")

/-- Strategy `tryStableAttributePath`: the first structural attribute
whose candidate `//tag[@attr="value"]` passes the guard, else a
distinctive stable class via `contains(@class, …)`. -/
def tryStableAttributePath (doc : Elem) (a : Addr) : Option String :=
  let tag := tagAt doc a
  let attrCands := structuralAttributes.filterMap fun attr =>
    match getAttr doc a attr with
    | some v =>
      if v ≠ "" && !isDataSpecificValue attr v then
        some ("//" ++ tag ++ "[@" ++ attr ++ "=" ++ qv (escapeXPath v) ++ "]")
      else none
    | none => none
  match attrCands.find? (okCand doc a) with
  | some x => some x
  | none =>
    match getStableClass doc a with
    | some cls =>
      if isDistinctiveClass cls then
        guarded doc a ("//" ++ tag ++ "[contains(@class, " ++ qv (escapeXPath cls) ++ ")]")
      else none
    | none => none

/-- Strategy `tryStructuralPath`: tag plus position when the element
has same-tag siblings, else a distinctive stable class. -/
def tryStructuralPath (doc : Elem) (a : Addr) : Option String :=
  let tag := tagAt doc a
  match (if 1 < getSiblingsByTag doc a then
           guarded doc a ("//" ++ tag ++ "[" ++ toString (getElementPosition doc a) ++ "]")
         else none) with
  | some x => some x
  | none =>
    if classNameOf doc a ≠ "" then
      match getStableClass doc a with
      | some cls =>
        if isDistinctiveClass cls then
          guarded doc a ("//" ++ tag ++ "[contains(@class, " ++ qv (escapeXPath cls) ++ ")]")
        else none
      | none => none
    else none

/-- Strategy `trySiblingRelationshipPath`: for a `dd` immediately
preceded by a `dt`, key on the `dt`'s trimmed text when it is 4–29
characters long and not user-data-like. -/
def trySiblingRelationshipPath (doc : Elem) (a : Addr) : Option String :=
  match prevSibling a with
  | none => none
  | some p =>
    if tagAt doc a = "dd" && tagAt doc p = "dt" then
      let labelText := jsTrim (textContentAt doc p)
      if labelText ≠ "" && labelText.length < 30 && 3 < labelText.length &&
         !looksLikeUserData labelText then
        guarded doc a ("//dt[contains(text(), " ++ qv (escapeXPath labelText) ++
                       ")]/following-sibling::dd[1]")
      else none
    else none

/-! ### Incremental strategy, fallback and simplifier -/

/-- The parent segment of the incremental walk: tag plus position when
the parent has same-tag siblings, else a stable-id predicate when
available, else the bare tag. -/
def incrParentSegment (doc : Elem) (c : Addr) : String :=
  let pt := tagAt doc c
  if 1 < getSiblingsByTag doc c then
    pt ++ "[" ++ toString (getElementPosition doc c) ++ "]"
  else if idOf doc c ≠ "" && isStableId (idOf doc c) then
    pt ++ "[@id=" ++ qv (escapeXPath (idOf doc c)) ++ "]"
  else pt

/-- The inner ancestor loop of `buildIncrementalPath`: at each
ancestor try `//parentTag//segment`, `//parentSegment//segment` and
the accumulated path, stopping early at semantic landmarks; when the
walk exhausts (document element, depth bound, or a landmark whose
extra attempt fails) the accumulated path is returned unchecked.
A timeout returns `null`. -/
def incrLoop (doc : Elem) (g : GenState) (a : Addr) (cs : String) :
    Option Addr → Nat → List String → Option String
  | none, _, segments => some ("//" ++ jsJoin "//" segments)
  | some c, fuel, segments =>
    if c = [] then some ("//" ++ jsJoin "//" segments)
    else
      match fuel with
      | 0 => some ("//" ++ jsJoin "//" segments)
      | fuel + 1 =>
        if isTimeout g then none
        else
          let pt := tagAt doc c
          if implicitElements.contains pt then
            incrLoop doc g a cs (parentAddr c) fuel segments
          else
            let parentSegment := incrParentSegment doc c
            let x1 := "//" ++ pt ++ "//" ++ cs
            if okCand doc a x1 then some x1
            else
              let x2 := "//" ++ parentSegment ++ "//" ++ cs
              if okCand doc a x2 then some x2
              else
                let segments' := parentSegment :: segments
                let x3 := "//" ++ jsJoin "//" segments'
                if okCand doc a x3 then some x3
                else if semanticLandmarks.contains pt then
                  let x4 := "//" ++ pt ++ "//" ++ cs
                  if okCand doc a x4 then some x4
                  else some ("//" ++ jsJoin "//" segments')
                else incrLoop doc g a cs (parentAddr c) fuel segments'

/-- Strategy `buildIncrementalPath`: start from the element's own
position-or-tag segment, test it alone, then walk upward.  The `fuel`
argument only bounds the initial implicit-element skip (the source
recurses on `parentElement!` there) by the depth of the element, which
the wrapper supplies. -/
def buildIncrementalPathF (doc : Elem) (g : GenState) : Nat → Addr → Option String
  | 0, _ => none
  | fuel + 1, a =>
    let tag := tagAt doc a
    if implicitElements.contains tag then
      if a = [] then none
      else buildIncrementalPathF doc g fuel a.dropLast
    else
      let currentSegment :=
        if getSiblingsByTag doc a = 1 then tag
        else tag ++ "[" ++ toString (getElementPosition doc a) ++ "]"
      let x0 := "//" ++ currentSegment
      if okCand doc a x0 then some x0
      else incrLoop doc g a currentSegment (parentAddr a) g.maxDepth [currentSegment]

/-- `buildIncrementalPath`. -/
def buildIncrementalPath (doc : Elem) (g : GenState) (a : Addr) : Option String :=
  buildIncrementalPathF doc g (a.length + 1) a

/-- The elements that contribute a segment to the fallback
`buildMinimalSemanticPath` walk, in emission order (deepest first):
implicit elements and elements with an unstable id are skipped, the
walk stops after a semantic landmark, at the document element, at the
depth bound, or on timeout. -/
def semanticSrcs (doc : Elem) (g : GenState) : Option Addr → Nat → List Addr
  | none, _ => []
  | some _, 0 => []
  | some c, fuel + 1 =>
    if c = [] then []
    else if isTimeout g then []
    else if implicitElements.contains (tagAt doc c) then
      semanticSrcs doc g (parentAddr c) fuel
    else if idOf doc c ≠ "" && !isStableId (idOf doc c) then
      semanticSrcs doc g (parentAddr c) fuel
    else
      c :: (if semanticLandmarks.contains (tagAt doc c) then []
            else semanticSrcs doc g (parentAddr c) fuel)

/-- Fallback `buildMinimalSemanticPath`: the minimal segments of the
contributing elements, outermost first. -/
def buildMinimalSemanticPath (doc : Elem) (g : GenState) (a : Addr) : String :=
  "//" ++ jsJoin "//"
    (((semanticSrcs doc g (some a) g.maxDepth).reverse).map (getMinimalSegment doc))

/-- `hasPositionalIndex`: the segment ends in a positional index
(`/\[\d+\]$/`). -/
def hasPositionalIndex (s : String) : Bool :=
  match s.data.reverse with
  | ']' :: rest =>
    let ds := rest.takeWhile isDigitC
    !ds.isEmpty && (rest.dropWhile isDigitC).head? = some '['
  | _ => false

/-- `findAnchorInPath`: index of the first segment carrying an `id`,
`data-testid` or `data-test` predicate. -/
def findAnchorInPath (parts : List String) : Option Nat :=
  parts.findIdx? fun seg =>
    sIncludes "[@id=" seg || sIncludes "[@data-testid=" seg ||
    sIncludes "[@data-test=" seg

/-- The reduction candidates of `simplifyPath`, as segment lists in
the order the source's passes try them:
1. drop one non-positional interior segment;
2. (`parts.length > 3`) keep the first segment and a tail, cutting at
   a non-positional segment;
3. drop one positional interior segment other than the first
   positional one;
4. truncate from the front, only past the first positional segment;
5. (`parts.length > 3`) keep the first segment and a tail, cutting
   anywhere but the first positional index;
6. (`parts.length > 3`) the anchor segment plus the last two. -/
def candLists (parts : List String) : List (List String) :=
  let n := parts.length
  let fpi := parts.findIdx? hasPositionalIndex
  let passA := (List.range n).filterMap fun i =>
    if hasPositionalIndex (parts.getD i "") then none
    else if i = 0 || i = n - 1 then none
    else some (parts.eraseIdx i)
  let passB :=
    if 3 < n then
      (List.range' 1 (n - 2)).filterMap fun i =>
        if hasPositionalIndex (parts.getD i "") then none
        else some (parts.take 1 ++ parts.drop (i + 1))
    else []
  let passC := (List.range n).filterMap fun i =>
    if !hasPositionalIndex (parts.getD i "") then none
    else if fpi = some i then none
    else if i = 0 || i = n - 1 then none
    else some (parts.eraseIdx i)
  let passD := (List.range' 1 (n - 2)).filterMap fun i =>
    match fpi with
    | some k => if i ≤ k then none else some (parts.drop i)
    | none => some (parts.drop i)
  let passE :=
    if 3 < n then
      (List.range' 1 (n - 2)).filterMap fun i =>
        if fpi = some i then none
        else some (parts.take 1 ++ parts.drop (i + 1))
    else []
  let passF :=
    if 3 < n then
      match findAnchorInPath parts with
      | some ai =>
        if ai < n - 2 then [parts.getD ai "" :: parts.drop (n - 2)] else []
      | none => []
    else []
  passA ++ passB ++ passC ++ passD ++ passE ++ passF

/-- Rebuild a candidate path from its segments. -/
def rebuild (pl : List String) : String := "//" ++ jsJoin "//" pl

/-- `simplifyPath`: split into `//`-separated segments, try the
reduction passes in order, return the first candidate that is unique
and validates, else the input unchanged.  Inputs shorter than ten
characters or with at most two segments are returned unchanged. -/
def simplifyPath (doc : Elem) (xpath : String) (target : Addr) : String :=
  if xpath.length < 10 then xpath
  else
    let parts := splitSegs xpath
    if parts.length ≤ 2 then xpath
    else
      match (candLists parts).find? (fun pl => okCand doc target (rebuild pl)) with
      | some pl => rebuild pl
      | none => xpath

/-! ### The driver `generate` -/

/-- Which branch of `generate` produced the result. -/
inductive GenPath where
  | anchor
  | attr
  | structural
  | sibling
  | incremental
  | fallback
  deriving DecidableEq, Repr

/-- The acceptance test of `generate`: a strategy's candidate is taken
iff it is non-null and `validateSelector` holds for it. -/
def pick (doc : Elem) (a : Addr) (o : Option String) : Option String :=
  match o with
  | some s => if validateSelector doc s a then some s else none
  | none => none

/-- `generate`, with the branch that produced the result made
explicit.  Strategies run in the source's order; the incremental
result is simplified before return; the fallback path is returned
(simplified) without validation. -/
def generateR (doc : Elem) (g : GenState) (a : Addr) : String × GenPath :=
  match pick doc a (tryStableAnchorPath doc a) with
  | some p => (p, .anchor)
  | none =>
    match pick doc a (tryStableAttributePath doc a) with
    | some p => (p, .attr)
    | none =>
      match pick doc a (tryStructuralPath doc a) with
      | some p => (p, .structural)
      | none =>
        match pick doc a (trySiblingRelationshipPath doc a) with
        | some p => (p, .sibling)
        | none =>
          match pick doc a (buildIncrementalPath doc g a) with
          | some p => (simplifyPath doc p a, .incremental)
          | none =>
            (simplifyPath doc (buildMinimalSemanticPath doc g a) a, .fallback)

/-- `generate`: the returned locator expression. -/
def generate (doc : Elem) (g : GenState) (a : Addr) : String :=
  (generateR doc g a).1

/-- `getElementByXPath` / the companion `locate` operation: the first
match of an expression, if any. -/
def getElementByXPath (doc : Elem) (s : String) : Option Addr :=
  match evaluate doc s with
  | none => none
  | some l => l.head?

/-! ### Concrete documents used by the claims -/

/-- Shorthand element constructor. -/
def el (t : String) (ats : List (String × String)) (tx : String)
    (ch : List Elem) : Elem := .mk t ats tx ch

/-- The worked-scenario document of the spec:
`<ul id="list1234XX"><li>A</li><li>B</li><li data-testid="item-target">C</li></ul>`
under `html > body`.  The third `li` is at address `[0, 0, 2]`. -/
def docWorked : Elem :=
  el "html" [] "" [el "body" [] "" [el "ul" [("id", "list1234XX")] "" [
    el "li" [] "A" [], el "li" [] "B" [],
    el "li" [("data-testid", "item-target")] "C" []]]]

/-- Two structurally identical unidentifiable chains
`p > div > div > span` under `body`; the first `span` is at
`[0, 0, 0, 0, 0]`. -/
def docTwin : Elem :=
  el "html" [] "" [el "body" [] "" [
    el "p" [] "" [el "div" [] "" [el "div" [] "" [el "span" [] "" []]]],
    el "p" [] "" [el "div" [] "" [el "div" [] "" [el "span" [] "" []]]]]]

/-- A generator state with `maxAncestorDepth = 2` (a legal
`Generation Request` configuration). -/
def cfgTwin : GenState := mkGen (some 2) none

/-- The spec's sibling-shortcut document `<dt>Price</dt><dd>$42</dd>`
inside a `dl`; the `dd` is at `[0, 0, 1]`. -/
def docPrice : Elem :=
  el "html" [] "" [el "body" [] "" [el "dl" [] "" [
    el "dt" [] "Price" [], el "dd" [] "$42" []]]]

/-- Two label/value `dl` pairs, making every earlier strategy fail for
the first `dd` (at `[0, 0, 1]`). -/
def docTwoPairs : Elem :=
  el "html" [] "" [el "body" [] "" [
    el "dl" [] "" [el "dt" [] "Price" [], el "dd" [] "$42" []],
    el "dl" [] "" [el "dt" [] "Qty" [], el "dd" [] "7" []]]]

/-- The sibling-shortcut expression keyed on `"Price"`. -/
def priceSib : String :=
  "//dt[contains(text(), " ++ qv "Price" ++ ")]/following-sibling::dd[1]"

/-- An attribute value containing a double quote whose remainder
continues as further valid XPath steps. -/
def vInj : String := "x\"]//div[@role=\"btn"

/-- A document whose target `div` (at `[0, 0, 0]`) carries
`data-test = vInj` and `role="btn"`, nested in a `div` with
`data-test="x"`. -/
def docInj : Elem :=
  el "html" [] "" [el "body" [] "" [
    el "div" [("data-test", "x")] "" [
      el "div" [("data-test", vInj), ("role", "btn")] "" []]]]

/-- A document with a single `ul > li` (the `li` at `[0, 0, 0]`),
used as the simplifier's validation target. -/
def docPos : Elem :=
  el "html" [] "" [el "body" [] "" [el "ul" [] "" [el "li" [] "x" []]]]

/-- A path whose first positional segment is `div[1]`. -/
def pathPos : String := "//ul//div[1]//span//li"

/-- A document whose target `div` (at `[0, 0]`) has the dynamic id
`ember12`. -/
def docEmber : Elem :=
  el "html" [] "" [el "body" [] "" [el "div" [("id", "ember12")] "" []]]

/-! ### Spec-side shape descriptions

These predicates formalise the spec's verbal descriptions of the
generated-id and generated-class shapes, written as explicit
decompositions (the patterns are matched case-insensitively where the
source regex carries the `i` flag, i.e. on the lowercased string). -/

/-- A nonempty all-digit character list. -/
def DigitStr (d : List Char) : Prop := d ≠ [] ∧ ∀ c ∈ d, isDigitC c = true

/-- A nonempty all-lowercase-letter character list. -/
def WordStr (w : List Char) : Prop := w ≠ [] ∧ ∀ c ∈ w, isLowerAZ c = true

/-- An exactly-eight-digit id (the amended reading of the spec's
"pure numeric sequences"). -/
def SpecNumeric8 (s : String) : Prop :=
  (strLower s).length = 8 ∧ ∀ c ∈ strLower s, isDigitC c = true

/-- The shape `ember<digits>`. -/
def SpecEmber (s : String) : Prop :=
  ∃ d, strLower s = "ember".data ++ d ∧ DigitStr d

/-- The shape `<framework>-<word>-<digits>` for `react`, `ng`, `vue`. -/
def SpecFw (p : String) (s : String) : Prop :=
  ∃ w d, strLower s = p.data ++ '-' :: (w ++ '-' :: d) ∧ WordStr w ∧ DigitStr d

/-- The shape `jsx-<digits>`. -/
def SpecJsx (s : String) : Prop :=
  ∃ d, strLower s = "jsx-".data ++ d ∧ DigitStr d

/-- The shape `<word>-<3+ digits>`. -/
def SpecWordDigits (s : String) : Prop :=
  ∃ w d, strLower s = w ++ '-' :: d ∧ WordStr w ∧ 3 ≤ d.length ∧
    ∀ c ∈ d, isDigitC c = true

/-- A long hex-like run: eight or more hex characters. -/
def SpecHexRun (s : String) : Prop :=
  8 ≤ (strLower s).length ∧ ∀ c ∈ strLower s, isHexC c = true

/-- A literal prefix of the lowercased id. -/
def SpecLowerPre (p : String) (s : String) : Prop :=
  ∃ t, strLower s = p.data ++ t

/-- The amended list of generated-id shapes: the spec's shapes with
"pure numeric sequences" narrowed to exactly eight digits (longer
digit runs are still caught by the hex-run shape; digit runs of up to
seven characters match no shape). -/
def SpecDynamicId (s : String) : Prop :=
  SpecNumeric8 s ∨ SpecEmber s ∨ SpecFw "react" s ∨ SpecFw "ng" s ∨
  SpecFw "vue" s ∨ SpecJsx s ∨ SpecWordDigits s ∨ SpecHexRun s ∨
  SpecLowerPre "uid-" s ∨ SpecLowerPre "gen-" s ∨ SpecLowerPre "auto-" s

/-- A literal prefix of the raw token (the class prefixes are matched
case-sensitively by the source). -/
def SpecRawPre (p : String) (s : String) : Prop :=
  ∃ t, s.data = p.data ++ t

/-- The shape `jss<digits>…`: `jss` followed by at least one digit. -/
def SpecJss (s : String) : Prop :=
  ∃ c t, s.data = "jss".data ++ c :: t ∧ isDigitC c = true

/-- A trailing underscore group: an underscore followed by five or
more alphanumerics running to the end (matched on the lowercased
token). -/
def SpecUnderAlnum5 (s : String) : Prop :=
  ∃ pre post, strLower s = pre ++ '_' :: post ∧ 5 ≤ post.length ∧
    ∀ c ∈ post, isAlnumC c = true

/-- The shape "1–2 letters followed by digits" (whole token, matched
on the lowercased token). -/
def SpecLetters12 (s : String) : Prop :=
  ∃ w d, strLower s = w ++ d ∧ w ≠ [] ∧ w.length ≤ 2 ∧
    (∀ c ∈ w, isLowerAZ c = true) ∧ DigitStr d

/-- A leading digit. -/
def SpecLeadDigit (s : String) : Prop :=
  ∃ c t, s.data = c :: t ∧ isDigitC c = true

/-- The generated-class shapes of the spec. -/
def SpecUnstableClass (s : String) : Prop :=
  SpecRawPre "css-" s ∨ SpecRawPre "jsx-" s ∨ SpecRawPre "sc-" s ∨
  SpecRawPre "makeStyles-" s ∨ SpecJss s ∨ SpecUnderAlnum5 s ∨
  SpecLetters12 s ∨ SpecLeadDigit s

/-- A purely alphabetic token of length at least six (on the
lowercased token, as the source regex carries the `i` flag). -/
def SpecAlpha6 (s : String) : Prop :=
  6 ≤ (strLower s).length ∧ ∀ c ∈ strLower s, isLowerAZ c = true

/-! ### Helper lemmas -/

theorem reject_of_parse_none {doc : Elem} {s : String} {t : Addr}
    (h : parseQuery s = none) :
    isUniqueSelector doc s = false ∧ validateSelector doc s t = false := by
  constructor <;> simp [isUniqueSelector, validateSelector, evaluate, h]

theorem replaceCharL_id {c : Char} {r : List Char} {l : List Char}
    (h : ¬ l.contains c) : replaceCharL c r l = l := by
  induction l with
  | nil => rfl
  | cons x xs ih =>
    simp only [List.contains_cons, Bool.or_eq_true, not_or] at h
    have hx : x ≠ c := by
      intro hxc
      exact h.1 (by simp [hxc])
    simp [replaceCharL, hx, ih (by simpa using h.2)]

/-! ### Claim theorems -/

/-- C2 counterexample: on the spec's worked-scenario document the id
`"list1234XX"` matches no dynamic-id pattern, so for the third `li`
the generator anchors on the `ul`'s id and returns
`(//ul[@id="list1234XX"]//li)[3]` — the unstable-looking ancestor id
appears in the returned expression and the stable-attribute candidate
`//li[@data-testid="item-target"]` is not returned, even though the
minimal-tag candidate `//li` is indeed rejected with three matches. -/
theorem c2_counterexample :
    (evaluate docWorked "//li").map List.length = some 3 ∧
    generate docWorked cfgD [0, 0, 2] =
      "(//ul[@id=" ++ qv "list1234XX" ++ "]//li)[3]" ∧
    sIncludes "list1234XX" (generate docWorked cfgD [0, 0, 2]) = true ∧
    generate docWorked cfgD [0, 0, 2] ≠
      "//li[@data-testid=" ++ qv "item-target" ++ "]" := by
  refine ⟨by decide, by decide, by decide, by decide⟩

/-- C2 amended: for the worked-scenario document, `//li` is rejected
(3 matches), but `"list1234XX"` is classified stable
(`isStableId` returns `true`: it matches none of the dynamic-id
patterns), so the stable-anchor strategy anchors on the `ul`'s id and
immediately returns the validated positional path
`(//ul[@id="list1234XX"]//li)[3]`; the stable-attribute strategy is
never reached. -/
theorem c2_amended :
    isUniqueSelector docWorked "//li" = false ∧
    isStableId "list1234XX" = true ∧
    generateR docWorked cfgD [0, 0, 2] =
      ("(//ul[@id=" ++ qv "list1234XX" ++ "]//li)[3]", .anchor) ∧
    okCand docWorked [0, 0, 2]
      ("(//ul[@id=" ++ qv "list1234XX" ++ "]//li)[3]") = true := by
  refine ⟨by decide, by decide, by decide, by decide⟩

/-- C4: on the input path `//ul//div[1]//span//li` whose first
positional segment is `div[1]` (at index 1), `simplifyPath` against a
document holding a single `ul > li` returns `//ul//li`: the
keep-first-segment-and-a-tail pass removes the run containing the
first positional segment, although the source's own comments state the
first positional segment is never removed. -/
theorem c4_first_positional_dropped :
    splitSegs pathPos = ["ul", "div[1]", "span", "li"] ∧
    (splitSegs pathPos).findIdx? hasPositionalIndex = some 1 ∧
    simplifyPath docPos pathPos [0, 0, 0] = "//ul//li" ∧
    "div[1]" ∉ splitSegs (simplifyPath docPos pathPos [0, 0, 0]) ∧
    okCand docPos [0, 0, 0] "//ul//li" = true := by
  refine ⟨by decide, by decide, by decide, by decide, by decide⟩

/-- C5 counterexample: `"123"` is a purely numeric id, yet
`isStableId` classifies it as stable (only exactly-eight-digit runs
match `dynamicIdPatterns`' numeric shape, and the hex-run shape needs
eight characters). -/
theorem c5_counterexample :
    "123".data ≠ [] ∧ (∀ c ∈ "123".data, isDigitC c = true) ∧
    isStableId "123" = true := by
  refine ⟨by decide, by decide, by decide⟩

/-- C6 counterexample: on the spec's own `<dt>Price</dt><dd>$42</dd>`
document the sibling expression keyed on `"Price"` is unique and
resolves to the `dd`, yet `generate` does not return it: the
minimal-tag candidate `//dd` wins first. -/
theorem c6_counterexample :
    isUniqueSelector docPrice priceSib = true ∧
    validateSelector docPrice priceSib [0, 0, 1] = true ∧
    generate docPrice cfgD [0, 0, 1] = "//dd" ∧
    generate docPrice cfgD [0, 0, 1] ≠ priceSib := by
  refine ⟨by decide, by decide, by decide, by decide⟩

/-- C10 counterexample: the value `vInj` contains a double quote and
no single quote; `escapeXPath` returns it unchanged, and on `docInj`
the candidate built from it is a well-formed injected expression that
is unique, validates, and is returned by `generate` — it is not
rejected through the validator's exception handling. -/
theorem c10_counterexample :
    vInj.data.contains dq = true ∧
    vInj.data.contains sq = false ∧
    escapeXPath vInj = vInj ∧
    generate docInj cfgD [0, 0, 0] =
      "//div[@data-test=" ++ qv vInj ++ "]" ∧
    isUniqueSelector docInj ("//div[@data-test=" ++ qv vInj ++ "]") = true := by
  refine ⟨by decide, by decide, by decide, by decide, by decide⟩

/-- C7: every evaluation error during a uniqueness or validation
check is caught inside `isUniqueSelector` and `validateSelector`,
which then return `false`: a candidate whose expression does not parse
is rejected, never propagated (`generate` is a total function of the
document and options). -/
theorem c7_eval_error_rejected (doc : Elem) (s : String) (t : Addr)
    (h : parseQuery s = none) :
    isUniqueSelector doc s = false ∧ validateSelector doc s t = false :=
  reject_of_parse_none h

/-- C7 witness: the malformed expression `///` is rejected by both
checks. -/
theorem c7_witness :
    isUniqueSelector docWorked "///" = false ∧
    validateSelector docWorked "///" [0, 0, 2] = false :=
  c7_eval_error_rejected docWorked "///" [0, 0, 2] (by decide)

theorem okCand_unique {doc : Elem} {a : Addr} {s : String}
    (h : okCand doc a s = true) : isUniqueSelector doc s = true := by
  rw [okCand, Bool.and_eq_true] at h
  exact h.1

theorem okCand_valid {doc : Elem} {a : Addr} {s : String}
    (h : okCand doc a s = true) : validateSelector doc s a = true := by
  rw [okCand, Bool.and_eq_true] at h
  exact h.2

theorem guarded_some {doc : Elem} {a : Addr} {x s : String}
    (h : guarded doc a x = some s) : s = x ∧ okCand doc a s = true := by
  unfold guarded at h
  split at h
  · cases h
    exact ⟨rfl, by assumption⟩
  · cases h

theorem tryStableAnchorPath_ok {doc : Elem} {a : Addr} {s : String}
    (h : tryStableAnchorPath doc a = some s) : okCand doc a s = true := by
  rw [tryStableAnchorPath] at h
  simp only at h
  split at h
  · rename_i s' hg
    cases h
    exact (guarded_some hg).2
  · split at h
    · rename_i lm hfind
      cases h
      simpa using List.find?_some hfind
    · split at h
      · cases h
      · split at h
        · cases h
        · split at h
          · cases h
          · split at h
            · cases h
            · exact (guarded_some h).2

theorem tryStableAttributePath_ok {doc : Elem} {a : Addr} {s : String}
    (h : tryStableAttributePath doc a = some s) : okCand doc a s = true := by
  rw [tryStableAttributePath] at h
  split at h
  · rename_i x hfind
    cases h
    exact List.find?_some hfind
  · split at h
    · split at h
      · exact (guarded_some h).2
      · cases h
    · cases h

theorem tryStructuralPath_ok {doc : Elem} {a : Addr} {s : String}
    (h : tryStructuralPath doc a = some s) : okCand doc a s = true := by
  rw [tryStructuralPath] at h
  split at h
  · rename_i x heq
    split at heq
    · cases h
      exact (guarded_some heq).2
    · cases heq
  · split at h
    · split at h
      · split at h
        · exact (guarded_some h).2
        · cases h
      · cases h
    · cases h

theorem trySiblingRelationshipPath_ok {doc : Elem} {a : Addr} {s : String}
    (h : trySiblingRelationshipPath doc a = some s) : okCand doc a s = true := by
  rw [trySiblingRelationshipPath] at h
  simp only at h
  split at h
  · cases h
  · split at h
    · split at h
      · exact (guarded_some h).2
      · cases h
    · cases h

theorem simplifyPath_id_or_ok (doc : Elem) (x : String) (t : Addr) :
    simplifyPath doc x t = x ∨ okCand doc t (simplifyPath doc x t) = true := by
  rw [simplifyPath]
  simp only
  split
  · exact Or.inl rfl
  · split
    · exact Or.inl rfl
    · split
      · rename_i pl hfind
        exact Or.inr (by simpa using List.find?_some hfind)
      · exact Or.inl rfl

theorem pick_some {doc : Elem} {a : Addr} {o : Option String} {p : String}
    (h : pick doc a o = some p) :
    o = some p ∧ validateSelector doc p a = true := by
  unfold pick at h
  split at h
  · split at h
    · cases h
      exact ⟨rfl, by assumption⟩
    · cases h
  · cases h

/-- C1 counterexample: on the twin-chain document with
`maxAncestorDepth = 2`, `generate` for the first `span` returns via
the validated incremental strategy (not the fallback), yet the
returned expression `//div//div//span` matches two nodes — exactness
of the match count fails even though the first match is the target. -/
theorem c1_counterexample :
    (generateR docTwin cfgTwin [0, 0, 0, 0, 0]).2 = GenPath.incremental ∧
    generate docTwin cfgTwin [0, 0, 0, 0, 0] = "//div//div//span" ∧
    validateSelector docTwin (generate docTwin cfgTwin [0, 0, 0, 0, 0])
      [0, 0, 0, 0, 0] = true ∧
    (evaluate docTwin (generate docTwin cfgTwin [0, 0, 0, 0, 0])).map
      List.length = some 2 ∧
    isUniqueSelector docTwin (generate docTwin cfgTwin [0, 0, 0, 0, 0]) = false := by
  refine ⟨by decide, by decide, by decide, by decide, by decide⟩

/-- C1 amended: an expression returned by `generate` other than
through the unvalidated fallback always has the requested node as its
first match, and when it was accepted by one of the four
candidate-producing strategies (anchor, attribute, structural,
sibling) it additionally matches exactly one node; for the incremental
strategy's exhausted walk only the first-match property is guaranteed,
and uniqueness can fail. -/
theorem c1_amended (doc : Elem) (g : GenState) (a : Addr)
    (h : (generateR doc g a).2 ≠ GenPath.fallback) :
    validateSelector doc (generate doc g a) a = true ∧
    ((generateR doc g a).2 ≠ GenPath.incremental →
      isUniqueSelector doc (generate doc g a) = true) := by
  unfold generate generateR at *
  split at h
  · rename_i p hp
    obtain ⟨h1, h2⟩ := pick_some hp
    exact ⟨h2, fun _ => okCand_unique (tryStableAnchorPath_ok h1)⟩
  · split at h
    · rename_i p hp
      obtain ⟨h1, h2⟩ := pick_some hp
      exact ⟨h2, fun _ => okCand_unique (tryStableAttributePath_ok h1)⟩
    · split at h
      · rename_i p hp
        obtain ⟨h1, h2⟩ := pick_some hp
        exact ⟨h2, fun _ => okCand_unique (tryStructuralPath_ok h1)⟩
      · split at h
        · rename_i p hp
          obtain ⟨h1, h2⟩ := pick_some hp
          exact ⟨h2, fun _ => okCand_unique (trySiblingRelationshipPath_ok h1)⟩
        · split at h
          · rename_i p hp
            obtain ⟨h1, h2⟩ := pick_some hp
            refine ⟨?_, fun hcontra => absurd rfl hcontra⟩
            rcases simplifyPath_id_or_ok doc p a with heq | hok
            · rw [heq]
              exact h2
            · exact okCand_valid hok
          · exact absurd rfl h

/-- C1 amended witness: on the single-pair document the `dd` resolves
through the anchor strategy, so the result validates and is unique. -/
theorem c1_amended_witness :
    (generateR docPrice cfgD [0, 0, 1]).2 ≠ GenPath.fallback ∧
    validateSelector docPrice (generate docPrice cfgD [0, 0, 1]) [0, 0, 1] = true ∧
    isUniqueSelector docPrice (generate docPrice cfgD [0, 0, 1]) = true :=
  have h : (generateR docPrice cfgD [0, 0, 1]).2 ≠ GenPath.fallback := by decide
  ⟨h, (c1_amended docPrice cfgD [0, 0, 1] h).1,
    (c1_amended docPrice cfgD [0, 0, 1] h).2 (by decide)⟩

/-- C10 amended: for every value containing a double quote and no
single quote, `escapeXPath` returns the value unchanged (its branch
replaces single quotes only), so the quote is embedded verbatim in the
generated predicate.  When that makes the candidate malformed it is
rejected through the validator's exception handling, but not always:
`c10_counterexample` exhibits a value whose quote yields a well-formed
injected candidate that is returned. -/
theorem c10_amended (v : String) (h1 : v.data.contains dq = true)
    (h2 : v.data.contains sq = false) : escapeXPath v = v := by
  have hv : v ≠ "" := by
    intro hemp
    rw [hemp] at h1
    simp at h1
  unfold escapeXPath
  rw [if_neg hv, if_neg (by rw [h1, h2]; simp), if_pos h1]
  rw [replaceCharL_id (by simpa using h2)]

/-- C10 amended witness: the value `a"b` is returned unchanged. -/
theorem c10_amended_witness :
    "a\"b".data.contains dq = true ∧ "a\"b".data.contains sq = false ∧
    escapeXPath "a\"b" = "a\"b" :=
  ⟨by decide, by decide, c10_amended "a\"b" (by decide) (by decide)⟩

theorem dropLast_pre {α : Type} (l : List α) : l.dropLast <+: l := by
  induction l with
  | nil => exact ⟨[], rfl⟩
  | cons a as ih =>
    cases as with
    | nil => exact ⟨[a], rfl⟩
    | cons b bs =>
      obtain ⟨t, ht⟩ := ih
      exact ⟨t, by simpa [List.dropLast] using congrArg (a :: ·) ht⟩

theorem semanticSrcs_sub (doc : Elem) (g : GenState) :
    ∀ (fuel : Nat) (c x : Addr),
      x ∈ semanticSrcs doc g (some c) fuel → x <+: c := by
  intro fuel
  induction fuel with
  | zero =>
    intro c x hx
    simp [semanticSrcs] at hx
  | succ n ih =>
    intro c x hx
    rw [semanticSrcs] at hx
    by_cases hc : c = []
    · rw [if_pos hc] at hx
      simp at hx
    · rw [if_neg hc] at hx
      have hpar : parentAddr c = some c.dropLast := by
        simp [parentAddr, hc]
      have step : x ∈ semanticSrcs doc g (parentAddr c) n → x <+: c := by
        intro hm
        rw [hpar] at hm
        exact (ih c.dropLast x hm).trans (dropLast_pre c)
      split at hx
      · simp at hx
      · split at hx
        · exact step hx
        · split at hx
          · exact step hx
          · rcases List.mem_cons.mp hx with rfl | htail
            · exact ⟨[], by simp⟩
            · split at htail
              · simp at htail
              · exact step htail

/-- C9: in the fallback minimal-semantic-path builder every element
whose own id is truthy and unstable is skipped without emitting a
segment — the target itself included — so for a target with an
unstable id every contributing element is a proper ancestor of the
target: no segment of the returned expression describes the target,
and the deepest (last) segment comes from an ancestor.  The returned
string is exactly the minimal segments of the contributing elements,
outermost first. -/
theorem c9_fallback_skips_target (doc : Elem) (g : GenState) (a : Addr)
    (hid : idOf doc a ≠ "") (hunst : isStableId (idOf doc a) = false) :
    (∀ x ∈ semanticSrcs doc g (some a) g.maxDepth, x ≠ a ∧ x <+: a) ∧
    buildMinimalSemanticPath doc g a =
      "//" ++ jsJoin "//"
        (((semanticSrcs doc g (some a) g.maxDepth).reverse).map
          (getMinimalSegment doc)) := by
  refine ⟨?_, rfl⟩
  intro x hx
  have hnilcase : ∀ fuel, semanticSrcs doc g (some ([] : Addr)) fuel = [] := by
    intro fuel
    cases fuel <;> simp [semanticSrcs]
  by_cases hanil : a = []
  · subst hanil
    rw [hnilcase] at hx
    cases hx
  · have hsub : x <+: a.dropLast := by
      cases hfuel : g.maxDepth with
      | zero =>
        rw [hfuel] at hx
        simp [semanticSrcs] at hx
      | succ n =>
        rw [hfuel, semanticSrcs, if_neg hanil] at hx
        have hpar : parentAddr a = some a.dropLast := by
          simp [parentAddr, hanil]
        have hskip : (idOf doc a ≠ "" && !isStableId (idOf doc a)) = true := by
          simp [hid, hunst]
        by_cases ht : isTimeout g = true
        · rw [if_pos ht] at hx
          cases hx
        · rw [if_neg ht] at hx
          by_cases him : implicitElements.contains (tagAt doc a) = true
          · rw [if_pos him, hpar] at hx
            exact semanticSrcs_sub doc g n a.dropLast x hx
          · rw [if_neg him, if_pos hskip, hpar] at hx
            exact semanticSrcs_sub doc g n a.dropLast x hx
    have hlen1 : x.length ≤ a.dropLast.length := hsub.length_le
    have hlen2 := List.length_dropLast a
    have hlen3 : 0 < a.length := List.length_pos.mpr hanil
    constructor
    · intro hxa
      subst hxa
      omega
    · exact hsub.trans (dropLast_pre a)

/-- C9 witness: for the `div` with id `ember12`, the only
contributing element is `body`, a proper ancestor. -/
theorem c9_witness :
    idOf docEmber [0, 0] ≠ "" ∧ isStableId (idOf docEmber [0, 0]) = false ∧
    (∀ x ∈ semanticSrcs docEmber cfgD (some [0, 0]) cfgD.maxDepth,
      x ≠ [0, 0] ∧ x <+: [0, 0]) ∧
    buildMinimalSemanticPath docEmber cfgD [0, 0] = "//body" :=
  ⟨by decide, by decide,
    (c9_fallback_skips_target docEmber cfgD [0, 0] (by decide) (by decide)).1,
    by decide⟩

theorem pick_none_of_reject {doc : Elem} {a : Addr} {o : Option String}
    (h : ∀ s, o = some s → validateSelector doc s a = false) :
    pick doc a o = none := by
  unfold pick
  cases o with
  | none => rfl
  | some s =>
    simp only
    rw [h s rfl]
    simp

/-- C6 amended: for a `dd` immediately preceded by a `dt` whose
trimmed text has 4–29 characters and is not user-data-like, the
sibling-relationship strategy proposes
`//dt[contains(text(), "t")]/following-sibling::dd[1]`, and `generate`
returns it when it is unique, resolves to the `dd`, and none of the
three earlier strategies produced a validated candidate. -/
theorem c6_amended (doc : Elem) (g : GenState) (a p : Addr)
    (hp : prevSibling a = some p)
    (hdd : tagAt doc a = "dd") (hdt : tagAt doc p = "dt")
    (hne : jsTrim (textContentAt doc p) ≠ "")
    (hlen1 : (jsTrim (textContentAt doc p)).length < 30)
    (hlen2 : 3 < (jsTrim (textContentAt doc p)).length)
    (hud : looksLikeUserData (jsTrim (textContentAt doc p)) = false)
    (hok : okCand doc a ("//dt[contains(text(), " ++
      qv (escapeXPath (jsTrim (textContentAt doc p))) ++
      ")]/following-sibling::dd[1]") = true)
    (h1 : ∀ s, tryStableAnchorPath doc a = some s →
      validateSelector doc s a = false)
    (h2 : ∀ s, tryStableAttributePath doc a = some s →
      validateSelector doc s a = false)
    (h3 : ∀ s, tryStructuralPath doc a = some s →
      validateSelector doc s a = false) :
    generate doc g a = "//dt[contains(text(), " ++
      qv (escapeXPath (jsTrim (textContentAt doc p))) ++
      ")]/following-sibling::dd[1]" := by
  have hsib : trySiblingRelationshipPath doc a =
      some ("//dt[contains(text(), " ++
        qv (escapeXPath (jsTrim (textContentAt doc p))) ++
        ")]/following-sibling::dd[1]") := by
    rw [trySiblingRelationshipPath, hp]
    simp only
    rw [if_pos (by simp [hdd, hdt])]
    rw [if_pos (by simp [hne, hlen1, hlen2, hud])]
    rw [guarded, if_pos hok]
  have hv : validateSelector doc ("//dt[contains(text(), " ++
      qv (escapeXPath (jsTrim (textContentAt doc p))) ++
      ")]/following-sibling::dd[1]") a = true := okCand_valid hok
  rw [generate, generateR,
    pick_none_of_reject h1, pick_none_of_reject h2, pick_none_of_reject h3,
    hsib]
  simp only [pick, hv, if_pos]

/-- C6 amended witness: with two label/value pairs the earlier
strategies all fail for the first `dd` and `generate` returns the
sibling expression keyed on `"Price"`. -/
theorem c6_amended_witness :
    generate docTwoPairs cfgD [0, 0, 1] = priceSib :=
  have h1 : ∀ s, tryStableAnchorPath docTwoPairs [0, 0, 1] = some s →
      validateSelector docTwoPairs s [0, 0, 1] = false := by
    intro s hs
    rw [show tryStableAnchorPath docTwoPairs [0, 0, 1] = none by decide] at hs
    cases hs
  have h2 : ∀ s, tryStableAttributePath docTwoPairs [0, 0, 1] = some s →
      validateSelector docTwoPairs s [0, 0, 1] = false := by
    intro s hs
    rw [show tryStableAttributePath docTwoPairs [0, 0, 1] = none by decide] at hs
    cases hs
  have h3 : ∀ s, tryStructuralPath docTwoPairs [0, 0, 1] = some s →
      validateSelector docTwoPairs s [0, 0, 1] = false := by
    intro s hs
    rw [show tryStructuralPath docTwoPairs [0, 0, 1] = none by decide] at hs
    cases hs
  by
    have := c6_amended docTwoPairs cfgD [0, 0, 1] [0, 0, 0]
      (by decide) (by decide) (by decide) (by decide) (by decide) (by decide)
      (by decide) (by decide) h1 h2 h3
    simpa using this

theorem toNatLe {a b : Char} (h : a ≤ b) : a.toNat ≤ b.toNat := h

theorem toLower_digit {c : Char} (h : isDigitC c = true) : c.toLower = c := by
  rw [isDigitC, Bool.and_eq_true, decide_eq_true_eq, decide_eq_true_eq] at h
  have h9 : c.toNat ≤ 57 := toNatLe h.2
  unfold Char.toLower
  rw [if_neg]
  intro hcon
  omega

theorem digit_not_lower {c : Char} (h : isDigitC c = true) :
    isLowerAZ c = false := by
  rw [isDigitC, Bool.and_eq_true, decide_eq_true_eq, decide_eq_true_eq] at h
  have h9 : c.toNat ≤ 57 := toNatLe h.2
  rw [isLowerAZ]
  have hna : ¬('a' ≤ c) := by
    intro ha
    have h2 := toNatLe ha
    have h3 : ('a').toNat = 97 := by decide
    rw [h3] at h2
    omega
  simp [hna]

theorem isPrefixOf_ex : ∀ (p l : List Char),
    p.isPrefixOf l = true ↔ ∃ t, l = p ++ t
  | [], l => by simp [List.isPrefixOf]
  | c :: cs, [] => by simp [List.isPrefixOf]
  | c :: cs, x :: xs => by
    simp only [List.isPrefixOf, Bool.and_eq_true, beq_iff_eq]
    rw [isPrefixOf_ex cs xs]
    constructor
    · rintro ⟨rfl, t, rfl⟩
      exact ⟨t, rfl⟩
    · rintro ⟨t, h⟩
      injection h with h1 h2
      exact ⟨h1.symm, t, h2⟩

theorem dropLenApp : ∀ (p t : List Char), (p ++ t).drop p.length = t
  | [], t => rfl
  | c :: cs, t => by simp [dropLenApp cs t]

theorem mem_takeWhileP {p : Char → Bool} :
    ∀ {l : List Char} {x : Char}, x ∈ l.takeWhile p → p x = true := by
  intro l
  induction l with
  | nil => intro x hx; cases hx
  | cons c cs ih =>
    intro x hx
    rw [List.takeWhile_cons] at hx
    split at hx
    · rcases List.mem_cons.mp hx with rfl | htail
      · assumption
      · exact ih htail
    · cases hx

theorem takeWhile_app {p : Char → Bool} :
    ∀ (w : List Char) (c : Char) (d : List Char),
      (∀ x ∈ w, p x = true) → p c = false →
      (w ++ c :: d).takeWhile p = w ∧ (w ++ c :: d).dropWhile p = c :: d := by
  intro w
  induction w with
  | nil =>
    intro c d _ hc
    constructor
    · simp [List.takeWhile_cons, hc]
    · simp [List.dropWhile_cons, hc]
  | cons a as ih =>
    intro c d hw hc
    have ha : p a = true := hw a (by simp)
    have ih2 := ih c d (fun x hx => hw x (by simp [hx])) hc
    constructor
    · simp only [List.cons_append, List.takeWhile_cons, ha, if_pos]
      rw [ih2.1]
    · simp only [List.cons_append, List.dropWhile_cons, ha, if_pos]
      exact ih2.2

theorem lddB_ex (l : List Char) (m : Nat) :
    lddB l m = true ↔ ∃ w d, l = w ++ '-' :: d ∧ WordStr w ∧
      m ≤ d.length ∧ ∀ c ∈ d, isDigitC c = true := by
  constructor
  · intro h
    rw [lddB] at h
    split at h
    · rename_i d hdrop
      simp only [Bool.and_eq_true, Bool.not_eq_true', List.isEmpty_eq_false,
        decide_eq_true_eq, List.all_eq_true] at h
      refine ⟨l.takeWhile isLowerAZ, d, ?_, ⟨?_, ?_⟩, h.1.2, h.2⟩
      · conv_lhs => rw [← List.takeWhile_append_dropWhile (p := isLowerAZ) (l := l)]
        rw [hdrop]
      · intro hnil
        rw [hnil] at h
        exact h.1.1 rfl
      · intro x hx
        exact mem_takeWhileP hx
    · cases h
  · rintro ⟨w, d, rfl, ⟨hwne, hwall⟩, hlen, hdig⟩
    have hsep : isLowerAZ '-' = false := by decide
    obtain ⟨ht, hd⟩ := takeWhile_app w '-' d hwall hsep
    rw [lddB]
    simp only [hd, ht]
    simp only [Bool.and_eq_true, Bool.not_eq_true', List.isEmpty_eq_false,
      decide_eq_true_eq, List.all_eq_true]
    exact ⟨⟨hwne, hlen⟩, hdig⟩

theorem numeric8B_ex (l : List Char) :
    numeric8B l = true ↔ l.length = 8 ∧ ∀ c ∈ l, isDigitC c = true := by
  rw [numeric8B]
  simp [List.all_eq_true]

theorem emberB_ex (l : List Char) :
    emberB l = true ↔ ∃ d, l = "ember".data ++ d ∧ DigitStr d := by
  rw [emberB, Bool.and_eq_true, Bool.and_eq_true]
  constructor
  · rintro ⟨⟨h1, h2⟩, h3⟩
    obtain ⟨t, rfl⟩ := (isPrefixOf_ex _ _).mp h1
    have hdrop : ("ember".data ++ t).drop 5 = t := dropLenApp "ember".data t
    rw [hdrop] at h2 h3
    refine ⟨t, rfl, ?_, fun c hc => List.all_eq_true.mp h3 c hc⟩
    intro hnil
    rw [hnil] at h2
    exact absurd h2 (by decide)
  · rintro ⟨d, rfl, hne, hdig⟩
    have hdrop : ("ember".data ++ d).drop 5 = d := dropLenApp "ember".data d
    refine ⟨⟨(isPrefixOf_ex _ _).mpr ⟨d, rfl⟩, ?_⟩, ?_⟩
    · rw [hdrop]
      cases d with
      | nil => exact absurd rfl hne
      | cons c cs => rfl
    · rw [hdrop]
      exact List.all_eq_true.mpr hdig

theorem jsxB_ex (l : List Char) :
    jsxB l = true ↔ ∃ d, l = "jsx-".data ++ d ∧ DigitStr d := by
  rw [jsxB, Bool.and_eq_true, Bool.and_eq_true]
  constructor
  · rintro ⟨⟨h1, h2⟩, h3⟩
    obtain ⟨t, rfl⟩ := (isPrefixOf_ex _ _).mp h1
    have hdrop : ("jsx-".data ++ t).drop 4 = t := dropLenApp "jsx-".data t
    rw [hdrop] at h2 h3
    refine ⟨t, rfl, ?_, fun c hc => List.all_eq_true.mp h3 c hc⟩
    intro hnil
    rw [hnil] at h2
    exact absurd h2 (by decide)
  · rintro ⟨d, rfl, hne, hdig⟩
    have hdrop : ("jsx-".data ++ d).drop 4 = d := dropLenApp "jsx-".data d
    refine ⟨⟨(isPrefixOf_ex _ _).mpr ⟨d, rfl⟩, ?_⟩, ?_⟩
    · rw [hdrop]
      cases d with
      | nil => exact absurd rfl hne
      | cons c cs => rfl
    · rw [hdrop]
      exact List.all_eq_true.mpr hdig

theorem fwB_ex (p : String) (l : List Char) :
    fwB p l = true ↔ ∃ w d, l = p.data ++ '-' :: (w ++ '-' :: d) ∧
      WordStr w ∧ DigitStr d := by
  rw [fwB, Bool.and_eq_true]
  constructor
  · rintro ⟨h1, h2⟩
    obtain ⟨t, rfl⟩ := (isPrefixOf_ex _ _).mp h1
    have hlen2 : (p.data ++ ['-']).length = p.length + 1 := by
      rw [List.length_append]
      rfl
    have hdrop : ((p.data ++ ['-']) ++ t).drop (p.length + 1) = t := by
      have h0 := dropLenApp (p.data ++ ['-']) t
      rw [hlen2] at h0
      exact h0
    rw [hdrop] at h2
    obtain ⟨w, d, rfl, hw, hlen, hdig⟩ := (lddB_ex t 1).mp h2
    refine ⟨w, d, by simp, hw, ?_, hdig⟩
    intro hnil
    rw [hnil] at hlen
    simp at hlen
  · rintro ⟨w, d, rfl, hw, hdne, hdig⟩
    have hsplit : p.data ++ '-' :: (w ++ '-' :: d) =
        (p.data ++ ['-']) ++ (w ++ '-' :: d) := by simp
    rw [hsplit]
    refine ⟨(isPrefixOf_ex _ _).mpr ⟨w ++ '-' :: d, rfl⟩, ?_⟩
    have hlen2 : (p.data ++ ['-']).length = p.length + 1 := by
      rw [List.length_append]
      rfl
    have hdrop : ((p.data ++ ['-']) ++ (w ++ '-' :: d)).drop (p.length + 1) =
        w ++ '-' :: d := by
      have h0 := dropLenApp (p.data ++ ['-']) (w ++ '-' :: d)
      rw [hlen2] at h0
      exact h0
    rw [hdrop]
    refine (lddB_ex _ 1).mpr ⟨w, d, rfl, hw, ?_, hdig⟩
    cases d with
    | nil => exact absurd rfl hdne
    | cons c cs => simp

theorem wordDigitsB_ex (l : List Char) :
    wordDigitsB l = true ↔ ∃ w d, l = w ++ '-' :: d ∧ WordStr w ∧
      3 ≤ d.length ∧ ∀ c ∈ d, isDigitC c = true := by
  rw [wordDigitsB]
  exact lddB_ex l 3

theorem hexRunB_ex (l : List Char) :
    hexRunB l = true ↔ 8 ≤ l.length ∧ ∀ c ∈ l, isHexC c = true := by
  rw [hexRunB]
  simp [List.all_eq_true]

theorem preB_ex (p : String) (l : List Char) :
    preB p l = true ↔ ∃ t, l = p.data ++ t := by
  rw [preB]
  exact isPrefixOf_ex p.data l

theorem dynMatch_iff (s : String) : dynMatch s = true ↔ SpecDynamicId s := by
  rw [show dynMatch s = (numeric8B (strLower s) || emberB (strLower s) ||
    fwB "react" (strLower s) || fwB "ng" (strLower s) || fwB "vue" (strLower s) ||
    jsxB (strLower s) || wordDigitsB (strLower s) || hexRunB (strLower s) ||
    preB "uid-" (strLower s) || preB "gen-" (strLower s) ||
    preB "auto-" (strLower s)) from rfl]
  simp only [Bool.or_eq_true, or_assoc]
  rw [SpecDynamicId]
  exact or_congr (numeric8B_ex _) (or_congr (emberB_ex _) (or_congr (fwB_ex _ _)
    (or_congr (fwB_ex _ _) (or_congr (fwB_ex _ _) (or_congr (jsxB_ex _)
    (or_congr (wordDigitsB_ex _) (or_congr (hexRunB_ex _)
    (or_congr (preB_ex _ _) (or_congr (preB_ex _ _) (preB_ex _ _))))))))))

/-- C5 amended: `isStableId` classifies an id as unstable exactly when
it is empty or matches one of the generated-id shapes, with
"pure numeric sequences" amended to exactly-eight-digit runs (digit
runs of eight or more also fall under the hex-like-run shape, while
purely numeric ids of up to seven digits are stable). -/
theorem c5_amended (id : String) :
    isStableId id = false ↔ (id = "" ∨ SpecDynamicId id) := by
  by_cases hid : id = ""
  · subst hid
    exact ⟨fun _ => Or.inl rfl, fun _ => rfl⟩
  · rw [isStableId, if_neg hid, Bool.not_eq_false']
    rw [dynMatch_iff]
    constructor
    · exact Or.inr
    · rintro (h | h)
      · exact absurd h hid
      · exact h

theorem jssB_ex (l : List Char) :
    jssB l = true ↔ ∃ c t, l = "jss".data ++ c :: t ∧ isDigitC c = true := by
  rw [jssB, Bool.and_eq_true]
  constructor
  · rintro ⟨h1, h2⟩
    obtain ⟨t, rfl⟩ := (isPrefixOf_ex _ _).mp h1
    have hdrop : ("jss".data ++ t).drop 3 = t := dropLenApp "jss".data t
    rw [hdrop] at h2
    cases t with
    | nil => cases h2
    | cons c cs => exact ⟨c, cs, rfl, h2⟩
  · rintro ⟨c, t, rfl, hc⟩
    have hdrop : ("jss".data ++ c :: t).drop 3 = c :: t :=
      dropLenApp "jss".data (c :: t)
    refine ⟨(isPrefixOf_ex _ _).mpr ⟨c :: t, rfl⟩, ?_⟩
    rw [hdrop]
    exact hc

theorem underAlnum5B_ex (l : List Char) :
    underAlnum5B l = true ↔ ∃ pre post, l = pre ++ '_' :: post ∧
      5 ≤ post.length ∧ ∀ c ∈ post, isAlnumC c = true := by
  induction l with
  | nil =>
    simp [underAlnum5B]
  | cons c rest ih =>
    rw [underAlnum5B, Bool.or_eq_true, ih]
    constructor
    · rintro (h | ⟨pre, post, rfl, hlen, hal⟩)
      · simp only [Bool.and_eq_true, decide_eq_true_eq, List.all_eq_true] at h
        exact ⟨[], rest, by rw [h.1.1]; rfl, h.1.2, h.2⟩
      · exact ⟨c :: pre, post, rfl, hlen, hal⟩
    · rintro ⟨pre, post, heq, hlen, hal⟩
      cases pre with
      | nil =>
        injection heq with h1 h2
        subst h1
        subst h2
        left
        simp only [Bool.and_eq_true, decide_eq_true_eq, List.all_eq_true]
        exact ⟨⟨trivial, hlen⟩, hal⟩
      | cons p ps =>
        injection heq with h1 h2
        subst h1
        right
        exact ⟨ps, post, h2, hlen, hal⟩

theorem letters12B_ex (l : List Char) :
    letters12B l = true ↔ ∃ w d, l = w ++ d ∧ w ≠ [] ∧ w.length ≤ 2 ∧
      (∀ c ∈ w, isLowerAZ c = true) ∧ DigitStr d := by
  rw [letters12B]
  simp only [Bool.and_eq_true, Bool.or_eq_true, decide_eq_true_eq,
    Bool.not_eq_true', List.isEmpty_eq_false, List.all_eq_true]
  constructor
  · rintro ⟨⟨hlen, hne⟩, hdig⟩
    refine ⟨l.takeWhile isLowerAZ, l.dropWhile isLowerAZ,
      (List.takeWhile_append_dropWhile (p := isLowerAZ) (l := l)).symm,
      ?_, ?_, fun x hx => mem_takeWhileP hx, hne, hdig⟩
    · intro hnil
      rw [hnil] at hlen
      rcases hlen with h | h <;> cases h
    · rcases hlen with h | h <;> omega
  · rintro ⟨w, d, rfl, hwne, hw2, hwall, hdne, hdig⟩
    obtain ⟨c, cs, rfl⟩ : ∃ c cs, d = c :: cs := by
      cases d with
      | nil => exact absurd rfl hdne
      | cons c cs => exact ⟨c, cs, rfl⟩
    have hc : isLowerAZ c = false := digit_not_lower (hdig c (by simp))
    obtain ⟨ht, hd⟩ := takeWhile_app w c cs hwall hc
    rw [ht, hd]
    have hw1 : 1 ≤ w.length := by
      cases w with
      | nil => exact absurd rfl hwne
      | cons x xs => simp
    refine ⟨⟨?_, by simp⟩, hdig⟩
    rcases Nat.lt_or_ge w.length 2 with h | h
    · exact Or.inl (by omega)
    · exact Or.inr (by omega)

theorem leadDigitB_ex (l : List Char) :
    leadDigitB l = true ↔ ∃ c t, l = c :: t ∧ isDigitC c = true := by
  cases l with
  | nil => simp [leadDigitB]
  | cons c t =>
    rw [leadDigitB]
    constructor
    · intro h
      exact ⟨c, t, rfl, h⟩
    · rintro ⟨c2, t2, heq, hc⟩
      injection heq with h1 h2
      rw [h1]
      exact hc

theorem alpha6B_ex (l : List Char) :
    alpha6B l = true ↔ 6 ≤ l.length ∧ ∀ c ∈ l, isLowerAZ c = true := by
  rw [alpha6B]
  simp [List.all_eq_true]

theorem unstableClassMatch_iff (s : String) :
    unstableClassMatch s = true ↔ SpecUnstableClass s := by
  rw [show unstableClassMatch s = (preB "css-" s.data || preB "jsx-" s.data ||
    preB "sc-" s.data || preB "makeStyles-" s.data || jssB s.data ||
    underAlnum5B (strLower s) || letters12B (strLower s) ||
    leadDigitB s.data) from rfl]
  simp only [Bool.or_eq_true, or_assoc]
  rw [SpecUnstableClass]
  exact or_congr (preB_ex _ _) (or_congr (preB_ex _ _) (or_congr (preB_ex _ _)
    (or_congr (preB_ex _ _) (or_congr (jssB_ex _) (or_congr (underAlnum5B_ex _)
    (or_congr (letters12B_ex _) (leadDigitB_ex _)))))))

theorem mem_strLower_of_mem {s : String} {c : Char} (h : c ∈ s.data) :
    c.toLower ∈ strLower s := List.mem_map_of_mem Char.toLower h

theorem alpha6_no_unstable {s : String} (h : SpecAlpha6 s) :
    unstableClassMatch s = false := by
  obtain ⟨_, hall⟩ := h
  by_contra hne
  have hmatch : unstableClassMatch s = true := by
    cases hcase : unstableClassMatch s with
    | true => rfl
    | false => exact absurd hcase hne
  have hdash : ∀ (p : String), '-' ∈ p.data →
      (∃ t, s.data = p.data ++ t) → False := by
    rintro p hp ⟨t, heq⟩
    have hmem : '-' ∈ s.data := by
      rw [heq]
      exact List.mem_append.mpr (Or.inl hp)
    have := hall _ (by
      have h2 := mem_strLower_of_mem hmem
      rwa [show ('-').toLower = '-' from by decide] at h2)
    exact absurd this (by decide)
  have hdigraw : ∀ c : Char, isDigitC c = true → c ∈ s.data → False := by
    intro c hc hmem
    have h2 := mem_strLower_of_mem hmem
    rw [toLower_digit hc] at h2
    exact absurd (hall c h2) (by simpa using digit_not_lower hc)
  rcases (unstableClassMatch_iff s).mp hmatch with
    h | h | h | h | h | h | h | h
  · exact hdash "css-" (by decide) h
  · exact hdash "jsx-" (by decide) h
  · exact hdash "sc-" (by decide) h
  · exact hdash "makeStyles-" (by decide) h
  · obtain ⟨c, t, heq, hc⟩ := h
    exact hdigraw c hc (by rw [heq]; simp)
  · obtain ⟨pre, post, heq, _, _⟩ := h
    have hmem : '_' ∈ strLower s := by
      rw [heq]
      simp
    exact absurd (hall _ hmem) (by decide)
  · obtain ⟨w, d, heq, _, _, _, hdd⟩ := h
    obtain ⟨c, cs, rfl⟩ : ∃ c cs, d = c :: cs := by
      cases d with
      | nil => exact absurd rfl hdd.1
      | cons c cs => exact ⟨c, cs, rfl⟩
    have hc := hdd.2 c (by simp)
    have hmem : c ∈ strLower s := by
      rw [heq]
      simp
    exact absurd (hall c hmem) (by simpa using digit_not_lower hc)
  · obtain ⟨c, t, heq, hc⟩ := h
    exact hdigraw c hc (by rw [heq]; simp)

/-- C8: `isStableClass` rejects every token matching one of the
generated-class shapes; for purely alphabetic tokens of length at
least six it answers `true` exactly when the vowel ratio is at least
`0.3` (the floating-point comparison modelled exactly as
`3 * length ≤ 10 * vowelCount`); and every other nonempty token is
classified stable. -/
theorem c8_characterization :
    (∀ s, SpecUnstableClass s → isStableClass s = false) ∧
    (∀ s, SpecAlpha6 s →
      (isStableClass s = true ↔ 3 * s.length ≤ 10 * vowelCount s)) ∧
    (∀ s, s ≠ "" → ¬ SpecUnstableClass s → ¬ SpecAlpha6 s →
      isStableClass s = true) := by
  refine ⟨?_, ?_, ?_⟩
  · intro s hs
    rw [isStableClass]
    by_cases hemp : s = ""
    · rw [if_pos hemp]
    · rw [if_neg hemp, if_pos ((unstableClassMatch_iff s).mpr hs)]
  · intro s hs
    have hemp : s ≠ "" := by
      intro h
      subst h
      obtain ⟨hlen, _⟩ := hs
      revert hlen
      decide
    have hun := alpha6_no_unstable hs
    have hal : alpha6B (strLower s) = true := (alpha6B_ex _).mpr hs
    rw [isStableClass, if_neg hemp, if_neg (by rw [hun]; intro h; cases h),
      if_pos hal]
    exact decide_eq_true_iff
  · intro s hemp hun hal
    have hun2 : unstableClassMatch s = false := by
      cases hcase : unstableClassMatch s with
      | true => exact absurd ((unstableClassMatch_iff s).mp hcase) hun
      | false => rfl
    have hal2 : alpha6B (strLower s) = false := by
      cases hcase : alpha6B (strLower s) with
      | true => exact absurd ((alpha6B_ex _).mp hcase) hal
      | false => rfl
    rw [isStableClass, if_neg hemp, if_neg (by rw [hun2]; intro h; cases h),
      if_neg (by rw [hal2]; intro h; cases h)]

/-- C8 witness: `css-button` matches the `css-` shape and is rejected;
`header` is purely alphabetic of length six with vowel ratio `0.5` and
is accepted. -/
theorem c8_witness :
    isStableClass "css-button" = false ∧ isStableClass "header" = true :=
  ⟨c8_characterization.1 "css-button" (Or.inl ⟨"button".data, by decide⟩),
   (c8_characterization.2.1 "header" ⟨by decide, by decide⟩).mpr (by decide)⟩

end MiniBlaze
namespace MiniBlaze

theorem splitDDAux_ne_nil : ∀ (l acc : List Char) (pend : Bool),
    splitDDAux l pend acc ≠ [] := by
  intro l
  induction l with
  | nil => intro acc pend; cases pend <;> simp [splitDDAux]
  | cons c cs ih =>
    intro acc pend
    cases pend with
    | true =>
      rw [splitDDAux]
      split
      · simp
      · exact ih _ _
    | false =>
      rw [splitDDAux]
      split
      · exact ih _ _
      · exact ih _ _

theorem ddFree_concat {l : List Char} {c : Char}
    (hl : ddFree l = true) (hc : l.getLast? = some '/' → c ≠ '/') :
    ddFree (l ++ [c]) = true := by
  induction l with
  | nil => rfl
  | cons a as ih =>
    cases as with
    | nil =>
      simp only [List.getLast?_singleton] at hc
      rw [List.cons_append, List.nil_append]
      show (!(a = '/' && c = '/') && ddFree [c]) = true
      have : ¬(a = '/' ∧ c = '/') := by
        rintro ⟨rfl, rfl⟩
        exact hc (by simp) rfl
      simp only [Bool.and_eq_true, Bool.not_eq_true']
      constructor
      · by_cases ha : a = '/'
        · subst ha
          by_cases hcc : c = '/'
          · exact absurd ⟨rfl, hcc⟩ this
          · simp [hcc]
        · simp [ha]
      · rfl
    | cons b bs =>
      rw [ddFree, Bool.and_eq_true] at hl
      have hlast : (a :: b :: bs).getLast? = (b :: bs).getLast? := by
        simp [List.getLast?_cons_cons]
      rw [hlast] at hc
      have ih2 := ih hl.2 hc
      rw [List.cons_append]
      show (!(a = '/' && b = '/') && ddFree ((b :: bs) ++ [c])) = true
      rw [Bool.and_eq_true]
      exact ⟨hl.1, ih2⟩

end MiniBlaze
namespace MiniBlaze
theorem splitDDAux_good : ∀ (l acc : List Char) (pend : Bool),
    acc.head? ≠ some '/' → ddFree acc.reverse = true →
    (∀ p ∈ splitDDAux l pend acc, ddFree p = true) ∧
    (∀ p ∈ (splitDDAux l pend acc).dropLast, p.getLast? ≠ some '/') := by
  intro l
  induction l with
  | nil =>
    intro acc pend hacc hdd
    have hslash : ddFree (acc.reverse ++ ['/']) = true := by
      refine ddFree_concat hdd ?_
      intro hcon
      rw [List.getLast?_reverse] at hcon
      exact absurd hcon hacc
    cases pend with
    | false =>
      constructor
      · intro p hp
        simp only [splitDDAux, List.mem_singleton] at hp
        subst hp
        exact hdd
      · intro p hp
        simp [splitDDAux] at hp
    | true =>
      constructor
      · intro p hp
        simp only [splitDDAux, List.reverse_cons, List.mem_singleton] at hp
        subst hp
        exact hslash
      · intro p hp
        simp [splitDDAux] at hp
  | cons c cs ih =>
    intro acc pend hacc hdd
    cases pend with
    | true =>
      by_cases hc : c = '/'
      · have hstep : splitDDAux (c :: cs) true acc =
            acc.reverse :: splitDDAux cs false [] := by
          rw [splitDDAux, if_pos (by simp [hc])]
        rw [hstep]
        have ihr := ih [] false (by simp) (by simp [ddFree])
        constructor
        · intro p hp
          rcases List.mem_cons.mp hp with rfl | htail
          · exact hdd
          · exact ihr.1 p htail
        · intro p hp
          have hne := splitDDAux_ne_nil cs [] false
          rw [List.dropLast_cons_of_ne_nil hne] at hp
          rcases List.mem_cons.mp hp with rfl | htail
          · rw [List.getLast?_reverse]
            exact hacc
          · exact ihr.2 p htail
      · have hstep : splitDDAux (c :: cs) true acc =
            splitDDAux cs false (c :: '/' :: acc) := by
          rw [splitDDAux, if_neg (by simp [hc])]
        rw [hstep]
        have hmid : ddFree (acc.reverse ++ ['/']) = true := by
          refine ddFree_concat hdd ?_
          intro hcon
          rw [List.getLast?_reverse] at hcon
          exact absurd hcon hacc
        have hdd2 : ddFree (c :: '/' :: acc).reverse = true := by
          have e1 : (c :: '/' :: acc).reverse = (acc.reverse ++ ['/']) ++ [c] := by
            simp
          rw [e1]
          refine ddFree_concat hmid ?_
          intro _
          exact hc
        exact ih (c :: '/' :: acc) false
          (by intro h; exact hc (by simpa using h)) hdd2
    | false =>
      by_cases hc : c = '/'
      · have hstep : splitDDAux (c :: cs) false acc = splitDDAux cs true acc := by
          rw [splitDDAux, if_pos (by simp [hc])]
        rw [hstep]
        exact ih acc true hacc hdd
      · have hstep : splitDDAux (c :: cs) false acc =
            splitDDAux cs false (c :: acc) := by
          rw [splitDDAux, if_neg (by simp [hc])]
        rw [hstep]
        have hdd2 : ddFree (c :: acc).reverse = true := by
          rw [List.reverse_cons]
          refine ddFree_concat hdd ?_
          intro hcon
          rw [List.getLast?_reverse] at hcon
          exact absurd hcon hacc
        exact ih (c :: acc) false
          (by intro h; exact hc (by simpa using h)) hdd2

end MiniBlaze
namespace MiniBlaze

theorem ddFree_tail {x : Char} {xs : List Char} (h : ddFree (x :: xs) = true) :
    ddFree xs = true := by
  cases xs with
  | nil => rfl
  | cons y ys =>
    rw [ddFree, Bool.and_eq_true] at h
    exact h.2

theorem scan_sep : ∀ (p acc t : List Char), ddFree p = true →
    p.getLast? ≠ some '/' → acc.head? ≠ some '/' →
    splitDDAux (p ++ '/' :: '/' :: t) false acc =
      (acc.reverse ++ p) :: splitDDAux t false []
  | [], acc, t, _, _, hacc => by
    show splitDDAux ('/' :: '/' :: t) false acc = _
    rw [splitDDAux, if_pos rfl, splitDDAux, if_pos rfl]
    simp
  | c :: p', acc, t, hdd, hlast, hacc => by
    by_cases hc : c = '/'
    · subst hc
      cases p' with
      | nil => exact absurd (by simp) hlast
      | cons d p'' =>
        have hd : ¬ d = '/' := by
          intro hdc
          subst hdc
          rw [ddFree, Bool.and_eq_true, Bool.not_eq_true'] at hdd
          simp at hdd
        have hlast' : p''.getLast? ≠ some '/' := by
          cases p'' with
          | nil => simp
          | cons e p3 =>
            rw [List.getLast?_cons_cons, List.getLast?_cons_cons] at hlast
            exact hlast
        have hdd' : ddFree p'' = true := ddFree_tail (ddFree_tail hdd)
        have hrec := scan_sep p'' (d :: '/' :: acc) t hdd' hlast'
          (by intro h; exact hd (by simpa using h))
        show splitDDAux ('/' :: d :: p'' ++ '/' :: '/' :: t) false acc = _
        rw [List.cons_append, splitDDAux, if_pos rfl, List.cons_append,
          splitDDAux, if_neg (by simp [hd]), hrec]
        simp
    · have hlast' : p'.getLast? ≠ some '/' := by
        cases p' with
        | nil => simp
        | cons e p3 =>
          rw [List.getLast?_cons_cons] at hlast
          exact hlast
      have hrec := scan_sep p' (c :: acc) t (ddFree_tail hdd) hlast'
        (by intro h; exact hc (by simpa using h))
      show splitDDAux (c :: p' ++ '/' :: '/' :: t) false acc = _
      rw [List.cons_append, splitDDAux, if_neg (by simp [hc]), hrec]
      simp
  termination_by p _ _ _ _ _ => p.length

theorem scan_last : ∀ (z acc : List Char), ddFree z = true →
    acc.head? ≠ some '/' →
    splitDDAux z false acc = [acc.reverse ++ z]
  | [], acc, _, _ => by
    rw [splitDDAux]
    simp
  | c :: z', acc, hdd, hacc => by
    by_cases hc : c = '/'
    · subst hc
      cases z' with
      | nil =>
        rw [splitDDAux, if_pos rfl, splitDDAux]
        simp
      | cons d z'' =>
        have hd : ¬ d = '/' := by
          intro hdc
          subst hdc
          rw [ddFree, Bool.and_eq_true, Bool.not_eq_true'] at hdd
          simp at hdd
        have hrec := scan_last z'' (d :: '/' :: acc) (ddFree_tail (ddFree_tail hdd))
          (by intro h; exact hd (by simpa using h))
        rw [splitDDAux, if_pos rfl, splitDDAux, if_neg (by simp [hd]), hrec]
        simp
    · have hrec := scan_last z' (c :: acc) (ddFree_tail hdd)
        (by intro h; exact hc (by simpa using h))
      rw [splitDDAux, if_neg (by simp [hc]), hrec]
      simp
  termination_by z _ _ _ => z.length

theorem foldl_join_data : ∀ (ps : List String) (a : String),
    (ps.foldl (fun acc y => acc ++ "//" ++ y) a).data =
      a.data ++ (ps.map (fun q => '/' :: '/' :: q.data)).flatten := by
  intro ps
  induction ps with
  | nil => intro a; simp
  | cons q qs ih =>
    intro a
    rw [List.foldl_cons, ih]
    simp [String.data_append]

theorem jsJoin_data_cons (q q2 : String) (rest : List String) :
    (jsJoin "//" (q :: q2 :: rest)).data =
      q.data ++ '/' :: '/' :: (jsJoin "//" (q2 :: rest)).data := by
  show ((q2 :: rest).foldl (fun acc y => acc ++ "//" ++ y) q).data = _
  rw [foldl_join_data]
  rw [show (jsJoin "//" (q2 :: rest)).data =
    (rest.foldl (fun acc y => acc ++ "//" ++ y) q2).data from rfl]
  rw [foldl_join_data]
  simp

theorem scan_join : ∀ (pl : List String), pl ≠ [] →
    (∀ p ∈ pl, ddFree p.data = true) →
    (∀ p ∈ pl.dropLast, p.data.getLast? ≠ some '/') →
    splitDDAux (jsJoin "//" pl).data false [] = pl.map String.data
  | [], h, _, _ => absurd rfl h
  | [q], _, h1, _ => by
    have := scan_last q.data [] (h1 q (by simp)) (by simp)
    show splitDDAux q.data false [] = [q.data]
    simpa using this
  | q :: q2 :: rest, _, h1, h2 => by
    have hdl : (q :: q2 :: rest).dropLast = q :: (q2 :: rest).dropLast := by
      simp
    have hql : q.data.getLast? ≠ some '/' := by
      refine h2 q ?_
      rw [hdl]
      simp
    have hrec := scan_join (q2 :: rest) (by simp)
      (fun p hp => h1 p (by simp [hp]))
      (fun p hp => h2 p (by rw [hdl]; simp [hp]))
    rw [jsJoin_data_cons]
    have := scan_sep q.data [] ((jsJoin "//" (q2 :: rest)).data)
      (h1 q (by simp)) hql (by simp)
    rw [this, hrec]
    simp

end MiniBlaze
namespace MiniBlaze

theorem mk_data_id (s : String) : String.mk s.data = s := rfl

theorem data_ne_nil {p : String} (h : p ≠ "") : p.data ≠ [] := by
  intro hd
  apply h
  have h2 := congrArg String.mk hd
  rw [mk_data_id] at h2
  exact h2

theorem filterDropLastSub {α : Type} (f : α → Bool) :
    ∀ (l : List α), ∀ x ∈ (l.filter f).dropLast, x ∈ l.dropLast := by
  intro l
  induction l with
  | nil => intro x hx; simp at hx
  | cons a as ih =>
    intro x hx
    rw [List.filter_cons] at hx
    by_cases hfa : f a = true
    · rw [if_pos hfa] at hx
      cases hfilt : as.filter f with
      | nil =>
        rw [hfilt] at hx
        simp at hx
      | cons y ys =>
        rw [hfilt, List.dropLast_cons_of_ne_nil (by simp)] at hx
        have hasne : as ≠ [] := by
          intro hnil
          rw [hnil] at hfilt
          simp at hfilt
        rw [List.dropLast_cons_of_ne_nil hasne]
        rcases List.mem_cons.mp hx with rfl | htail
        · simp
        · have := ih x (by rw [hfilt]; exact htail)
          simp [this]
    · rw [if_neg hfa] at hx
      have h3 := ih x hx
      cases has : as with
      | nil =>
        rw [has] at h3
        simp at h3
      | cons b bs =>
        rw [List.dropLast_cons_of_ne_nil (by simp)]
        rw [has] at h3
        exact List.mem_cons.mpr (Or.inr h3)

theorem splitSegs_good (s : String) :
    (∀ p ∈ splitSegs s, p ≠ "" ∧ ddFree p.data = true) ∧
    (∀ p ∈ (splitSegs s).dropLast, p.data.getLast? ≠ some '/') := by
  have hg := splitDDAux_good s.data [] false (by simp) (by rfl)
  constructor
  · intro p hp
    rw [splitSegs] at hp
    obtain ⟨q, hq, rfl⟩ := List.mem_map.mp hp
    have hq2 := List.mem_filter.mp hq
    constructor
    · intro hemp
      have : q = [] := by
        have := congrArg String.data hemp
        simpa using this
      rw [this] at hq2
      simp at hq2
    · exact hg.1 q hq2.1
  · intro p hp
    rw [splitSegs, ← List.map_dropLast] at hp
    obtain ⟨q, hq, rfl⟩ := List.mem_map.mp hp
    have hq2 : q ∈ (splitDD s.data).dropLast := filterDropLastSub _ _ q hq
    exact hg.2 q hq2

theorem splitSegs_rebuild (pl : List String) (hne : pl ≠ [])
    (h1 : ∀ p ∈ pl, p ≠ "" ∧ ddFree p.data = true)
    (h2 : ∀ p ∈ pl.dropLast, p.data.getLast? ≠ some '/') :
    splitSegs (rebuild pl) = pl := by
  have hdata : (rebuild pl).data = '/' :: '/' :: (jsJoin "//" pl).data := by
    rw [rebuild]
    rw [String.data_append]
    rfl
  rw [splitSegs, hdata]
  have hstep : splitDD ('/' :: '/' :: (jsJoin "//" pl).data) =
      [] :: splitDDAux (jsJoin "//" pl).data false [] := by
    rw [splitDD, splitDDAux, if_pos rfl, splitDDAux, if_pos rfl]
    rfl
  rw [hstep, scan_join pl hne (fun p hp => (h1 p hp).2) h2]
  rw [List.filter_cons]
  rw [if_neg (by simp)]
  have hfilt : (pl.map String.data).filter (fun p => !p.isEmpty) =
      pl.map String.data := by
    rw [List.filter_eq_self]
    intro q hq
    obtain ⟨p, hp, rfl⟩ := List.mem_map.mp hq
    simpa using data_ne_nil (h1 p hp).1
  rw [hfilt, List.map_map]
  have : (String.mk ∘ String.data) = id := by
    funext x
    simp [mk_data_id]
  rw [this, List.map_id]

end MiniBlaze
namespace MiniBlaze

theorem dropAppendLe {α : Type} : ∀ (q r : List α) (i : Nat), i ≤ q.length →
    (q ++ r).drop i = q.drop i ++ r
  | _, _, 0, _ => rfl
  | [], _, i + 1, h => absurd h (by simp)
  | _ :: q2, r, i + 1, h => by
    show (q2 ++ r).drop i = q2.drop i ++ r
    exact dropAppendLe q2 r i (Nat.le_of_succ_le_succ h)

theorem takeAppendLe {α : Type} : ∀ (q r : List α) (i : Nat), i ≤ q.length →
    (q ++ r).take i = q.take i
  | _, _, 0, _ => rfl
  | [], _, i + 1, h => absurd h (by simp)
  | a :: q2, r, i + 1, h => by
    show a :: (q2 ++ r).take i = a :: q2.take i
    rw [takeAppendLe q2 r i (Nat.le_of_succ_le_succ h)]

theorem getDAppendLt {α : Type} (d : α) : ∀ (q r : List α) (i : Nat),
    i < q.length → (q ++ r).getD i d = q.getD i d
  | [], _, i, h => absurd h (by simp)
  | _ :: _, _, 0, _ => rfl
  | _ :: q2, r, i + 1, h => getDAppendLt d q2 r i (Nat.lt_of_succ_lt_succ h)

theorem getDMem {α : Type} (d : α) : ∀ (l : List α) (i : Nat),
    i < l.length → l.getD i d ∈ l
  | [], i, h => absurd h (by simp)
  | a :: _, 0, _ => List.mem_cons_self a _
  | _ :: l2, i + 1, h =>
    List.mem_cons.mpr (Or.inr (getDMem d l2 i (Nat.lt_of_succ_lt_succ h)))

theorem shapeOfConcat (parts q : List String) {pl : List String}
    (hne : parts ≠ []) (hpl : pl = q ++ [parts.getLast hne])
    (hq : ∀ p ∈ q, p ∈ parts.dropLast)
    (hlen : q.length + 1 < parts.length) :
    pl.length < parts.length ∧ pl.getLast? = parts.getLast? ∧
      ∀ p ∈ pl.dropLast, p ∈ parts.dropLast := by
  subst hpl
  refine ⟨by simpa using hlen, ?_, ?_⟩
  · rw [List.getLast?_concat, List.getLast?_eq_getLast parts hne]
  · rw [List.dropLast_concat]
    exact hq

end MiniBlaze
namespace MiniBlaze

theorem candLists_shape (parts : List String) (h3 : 3 ≤ parts.length) :
    ∀ pl ∈ candLists parts,
      pl.length < parts.length ∧ pl.getLast? = parts.getLast? ∧
        ∀ p ∈ pl.dropLast, p ∈ parts.dropLast := by
  intro pl hm
  have hne : parts ≠ [] := by
    intro h
    rw [h] at h3
    simp at h3
  have hdec : parts.dropLast ++ [parts.getLast hne] = parts :=
    List.dropLast_concat_getLast hne
  have hfl : parts.dropLast.length = parts.length - 1 :=
    List.length_dropLast parts
  simp only [candLists, List.mem_append] at hm
  rcases hm with ((((hA | hB) | hC) | hD) | hE) | hF
  · obtain ⟨i, hi, hf⟩ := List.mem_filterMap.mp hA
    rw [List.mem_range] at hi
    split at hf
    · exact absurd hf (by simp)
    · split at hf
      · exact absurd hf (by simp)
      · rename_i hcond
        have hlt : i < parts.length - 1 ∧ i ≠ 0 := by
          simp only [Bool.or_eq_true, decide_eq_true_eq, not_or] at hcond
          omega
        have hi1 : i < parts.dropLast.length := by rw [hfl]; exact hlt.1
        have herase : parts.eraseIdx i =
            parts.dropLast.eraseIdx i ++ [parts.getLast hne] := by
          conv_lhs => rw [← hdec]
          exact List.eraseIdx_append_of_lt_length hi1 _
        refine shapeOfConcat parts (parts.dropLast.eraseIdx i) hne ?_ ?_ ?_
        · rw [← Option.some.inj hf, herase]
        · intro p hp
          exact (List.eraseIdx_sublist parts.dropLast i).subset hp
        · rw [List.length_eraseIdx_of_lt hi1, hfl]
          omega
  · by_cases h4 : 3 < parts.length
    · rw [if_pos h4] at hB
      obtain ⟨i, hi, hf⟩ := List.mem_filterMap.mp hB
      rw [List.mem_range'] at hi
      obtain ⟨j, hj, rfl⟩ := hi
      split at hf
      · exact absurd hf (by simp)
      · have h1le : (1 : Nat) ≤ parts.dropLast.length := by rw [hfl]; omega
        have hile : 1 + 1 * j + 1 ≤ parts.dropLast.length := by rw [hfl]; omega
        have hd1 : parts.take 1 = parts.dropLast.take 1 := by
          conv_lhs => rw [← hdec]
          exact takeAppendLe _ _ 1 h1le
        have hd2 : parts.drop (1 + 1 * j + 1) =
            parts.dropLast.drop (1 + 1 * j + 1) ++ [parts.getLast hne] := by
          conv_lhs => rw [← hdec]
          exact dropAppendLe _ _ _ hile
        refine shapeOfConcat parts
          (parts.dropLast.take 1 ++ parts.dropLast.drop (1 + 1 * j + 1)) hne ?_ ?_ ?_
        · rw [← Option.some.inj hf, hd1, hd2, List.append_assoc]
        · intro p hp
          rcases List.mem_append.mp hp with h | h
          · exact List.take_subset _ _ h
          · exact List.drop_subset _ _ h
        · simp only [List.length_append, List.length_take, List.length_drop, hfl]
          omega
    · rw [if_neg h4] at hB
      simp at hB
  · obtain ⟨i, hi, hf⟩ := List.mem_filterMap.mp hC
    rw [List.mem_range] at hi
    split at hf
    · exact absurd hf (by simp)
    · split at hf
      · exact absurd hf (by simp)
      · split at hf
        · exact absurd hf (by simp)
        · rename_i hcond
          have hlt : i < parts.length - 1 ∧ i ≠ 0 := by
            simp only [Bool.or_eq_true, decide_eq_true_eq, not_or] at hcond
            omega
          have hi1 : i < parts.dropLast.length := by rw [hfl]; exact hlt.1
          have herase : parts.eraseIdx i =
              parts.dropLast.eraseIdx i ++ [parts.getLast hne] := by
            conv_lhs => rw [← hdec]
            exact List.eraseIdx_append_of_lt_length hi1 _
          refine shapeOfConcat parts (parts.dropLast.eraseIdx i) hne ?_ ?_ ?_
          · rw [← Option.some.inj hf, herase]
          · intro p hp
            exact (List.eraseIdx_sublist parts.dropLast i).subset hp
          · rw [List.length_eraseIdx_of_lt hi1, hfl]
            omega
  · obtain ⟨i, hi, hf⟩ := List.mem_filterMap.mp hD
    rw [List.mem_range'] at hi
    obtain ⟨j, hj, rfl⟩ := hi
    have hplEq : parts.drop (1 + 1 * j) = pl := by
      split at hf
      · split at hf
        · exact absurd hf (by simp)
        · exact Option.some.inj hf
      · exact Option.some.inj hf
    have hile : 1 + 1 * j ≤ parts.dropLast.length := by rw [hfl]; omega
    have hd : parts.drop (1 + 1 * j) =
        parts.dropLast.drop (1 + 1 * j) ++ [parts.getLast hne] := by
      conv_lhs => rw [← hdec]
      exact dropAppendLe _ _ _ hile
    refine shapeOfConcat parts (parts.dropLast.drop (1 + 1 * j)) hne ?_ ?_ ?_
    · rw [← hplEq, hd]
    · intro p hp
      exact List.drop_subset _ _ hp
    · simp only [List.length_drop, hfl]
      omega
  · by_cases h4 : 3 < parts.length
    · rw [if_pos h4] at hE
      obtain ⟨i, hi, hf⟩ := List.mem_filterMap.mp hE
      rw [List.mem_range'] at hi
      obtain ⟨j, hj, rfl⟩ := hi
      split at hf
      · exact absurd hf (by simp)
      · have h1le : (1 : Nat) ≤ parts.dropLast.length := by rw [hfl]; omega
        have hile : 1 + 1 * j + 1 ≤ parts.dropLast.length := by rw [hfl]; omega
        have hd1 : parts.take 1 = parts.dropLast.take 1 := by
          conv_lhs => rw [← hdec]
          exact takeAppendLe _ _ 1 h1le
        have hd2 : parts.drop (1 + 1 * j + 1) =
            parts.dropLast.drop (1 + 1 * j + 1) ++ [parts.getLast hne] := by
          conv_lhs => rw [← hdec]
          exact dropAppendLe _ _ _ hile
        refine shapeOfConcat parts
          (parts.dropLast.take 1 ++ parts.dropLast.drop (1 + 1 * j + 1)) hne ?_ ?_ ?_
        · rw [← Option.some.inj hf, hd1, hd2, List.append_assoc]
        · intro p hp
          rcases List.mem_append.mp hp with h | h
          · exact List.take_subset _ _ h
          · exact List.drop_subset _ _ h
        · simp only [List.length_append, List.length_take, List.length_drop, hfl]
          omega
    · rw [if_neg h4] at hE
      simp at hE
  · by_cases h4 : 3 < parts.length
    · rw [if_pos h4] at hF
      have hplEq : ∃ ai, ai < parts.length - 2 ∧
          parts.getD ai "" :: parts.drop (parts.length - 2) = pl := by
        split at hF
        · rename_i ai hfa
          split at hF
          · rename_i hai
            exact ⟨ai, hai, (List.mem_singleton.mp hF).symm⟩
          · simp at hF
        · simp at hF
      obtain ⟨ai, hai, hplEq⟩ := hplEq
      have hai2 : ai < parts.dropLast.length := by rw [hfl]; omega
      have hn2 : parts.length - 2 ≤ parts.dropLast.length := by rw [hfl]; omega
      have hd : parts.drop (parts.length - 2) =
          parts.dropLast.drop (parts.length - 2) ++ [parts.getLast hne] := by
        have h := dropAppendLe parts.dropLast [parts.getLast hne]
          (parts.length - 2) hn2
        rw [hdec] at h
        exact h
      have haim : parts.getD ai "" ∈ parts.dropLast := by
        have hg : parts.getD ai "" = parts.dropLast.getD ai "" := by
          conv_lhs => rw [← hdec]
          exact getDAppendLt "" _ _ ai hai2
        rw [hg]
        exact getDMem "" _ ai hai2
      refine shapeOfConcat parts
        (parts.getD ai "" :: parts.dropLast.drop (parts.length - 2)) hne ?_ ?_ ?_
      · rw [← hplEq, hd]
        rfl
      · intro p hp
        rcases List.mem_cons.mp hp with rfl | h
        · exact haim
        · exact List.drop_subset _ _ h
      · simp only [List.length_cons, List.length_drop, hfl]
        omega
    · rw [if_neg h4] at hF
      simp at hF

end MiniBlaze
namespace MiniBlaze

/-- C3: `simplifyPath` either returns its input unchanged or returns a
candidate with strictly fewer `//`-separated segments that is itself a
unique selector resolving to the target; in particular the result is
never longer than the input, and when no reduction pass produces a
valid shorter candidate the original path comes back unchanged. -/
theorem c3_simplify_shrinks (doc : Elem) (xpath : String) (target : Addr) :
    simplifyPath doc xpath target = xpath ∨
      (segCount (simplifyPath doc xpath target) < segCount xpath ∧
        isUniqueSelector doc (simplifyPath doc xpath target) = true ∧
        validateSelector doc (simplifyPath doc xpath target) target = true) := by
  by_cases hlen : xpath.length < 10
  · left
    rw [simplifyPath, if_pos hlen]
  · by_cases hp2 : (splitSegs xpath).length ≤ 2
    · left
      simp only [simplifyPath, if_neg hlen, if_pos hp2]
    · cases hfind : (candLists (splitSegs xpath)).find?
          (fun pl => okCand doc target (rebuild pl)) with
      | none =>
        left
        simp only [simplifyPath, if_neg hlen, if_neg hp2, hfind]
      | some pl =>
        right
        have he : simplifyPath doc xpath target = rebuild pl := by
          simp only [simplifyPath, if_neg hlen, if_neg hp2, hfind]
        have hok : okCand doc target (rebuild pl) = true := by
          simpa using List.find?_some hfind
        have hmem : pl ∈ candLists (splitSegs xpath) :=
          List.mem_of_find?_eq_some hfind
        obtain ⟨hs1, hs2, hs3⟩ :=
          candLists_shape (splitSegs xpath) (by omega) pl hmem
        have hgood := splitSegs_good xpath
        have hsne : splitSegs xpath ≠ [] := by
          intro h
          rw [h] at hp2
          simp at hp2
        have hplne : pl ≠ [] := by
          intro h
          rw [h, List.getLast?_eq_getLast _ hsne] at hs2
          simp at hs2
        have h1 : ∀ p ∈ pl, p ≠ "" ∧ ddFree p.data = true := by
          intro p hp
          rw [← List.dropLast_concat_getLast hplne] at hp
          rcases List.mem_append.mp hp with h | h
          · exact hgood.1 p ((dropLast_pre (splitSegs xpath)).subset (hs3 p h))
          · have hlast : pl.getLast hplne = (splitSegs xpath).getLast hsne := by
              have e1 := List.getLast?_eq_getLast pl hplne
              have e2 := List.getLast?_eq_getLast (splitSegs xpath) hsne
              rw [hs2, e2] at e1
              exact Option.some.inj e1.symm
            rw [List.mem_singleton.mp h, hlast]
            exact hgood.1 _ (List.getLast_mem hsne)
        have h2 : ∀ p ∈ pl.dropLast, p.data.getLast? ≠ some '/' := by
          intro p hp
          exact hgood.2 p (hs3 p hp)
        have hre : splitSegs (rebuild pl) = pl := splitSegs_rebuild pl hplne h1 h2
        rw [he, okCand, Bool.and_eq_true] at *
        refine ⟨?_, hok.1, hok.2⟩
        rw [segCount, segCount, hre]
        exact hs1

end MiniBlaze
